import Mathlib

/-!
# Verification of the BitMagic compressed bit-vector engine (as specified)

The repository ships only the demonstration driver `samples/bvsetalgebra/bvsetalgebra.cpp`;
the engine it exercises (`bm.h`, `bmserial.h`, `bmaggregator.h`) is not part of the
source tree.  Following the specification, the engine is modelled here as a shallow
embedding: a `Block` tagged union (`Empty | Full | Bitmap | RunList`), a sparse
`BlockStore` (association list from block index to block), a `BitVector` with a
declared logical size, the four boolean combinators with their per-block
short-circuit dispatch, a serializer / deserializer-with-operation over a token
stream, and an aggregator.  The block width `w` is a parameter of the design
(the spec gives 65536 as an example); every definition is parametric in `w`.
-/

namespace BitMagic

/-- Modelled from the spec: the enumerated set of operation codes
`{OR, AND, SUB, XOR}` used by the operation engine (§6). -/
inductive BOp where
  | or | and | sub | xor
deriving DecidableEq, Repr

/-- The pure per-position boolean semantics of each operator (§4.3:
"operations are purely boolean per-position"). -/
def opBool : BOp → Bool → Bool → Bool
  | .or, a, b => a || b
  | .and, a, b => a && b
  | .sub, a, b => a && !b
  | .xor, a, b => xor a b

/-- Modelled from the spec (§3): the atomic compressed representation of a
fixed-width slice of the bit space.  `bitmap` is a raw packed array of `w`
bits; `runlist` is an ordered list of toggle positions, each flipping the
running bit value from that position onward (running value starts at 0). -/
inductive Block where
  | empty
  | full
  | bitmap (bits : List Bool)
  | runlist (toggles : List Nat)
deriving DecidableEq, Repr

/-- Running value of a RunList at position `i`: the bit is 1 exactly when an
odd number of toggle positions are `≤ i` (each toggle flips the value "from
the previous position onward"). -/
def runVal (ts : List Nat) (i : Nat) : Bool :=
  decide ((ts.countP (fun t => decide (t ≤ i))) % 2 = 1)

/-- Logical content of a block at an in-block offset `j` (§3: "a block's
logical content is re-derivable purely from its variant + payload"). -/
def Block.get : Block → Nat → Bool
  | .empty, _ => false
  | .full, _ => true
  | .bitmap bits, j => bits.getD j false
  | .runlist ts, j => runVal ts j

/-- Decoding a block to a transient bitmap view of width `w` (§4.3: the
engine decodes `RunList` to a transient bitmap view as needed). -/
def Block.toBitmap (w : Nat) : Block → List Bool
  | .empty => List.replicate w false
  | .full => List.replicate w true
  | .bitmap bits => bits
  | .runlist ts => (List.range w).map (runVal ts)

/-- Canonicalization of a raw `w`-bit payload (§4.1: all-zero payloads
canonicalize to `Empty`, all-one payloads to `Full`). -/
def canonBits (bits : List Bool) : Block :=
  if bits.all (fun b => b = false) then .empty
  else if bits.all (fun b => b = true) then .full
  else .bitmap bits

/-- Structural well-formedness of a block for width `w`: a bitmap payload
holds exactly `w` bits. -/
def Block.wf (w : Nat) : Block → Prop
  | .bitmap bits => bits.length = w
  | _ => True

instance (w : Nat) (b : Block) : Decidable (b.wf w) := by
  cases b <;> simp [Block.wf] <;> infer_instance

/-- The bit-level fallback pass of the operation engine: both operands are
decoded to bitmap views, combined position-wise, and the result is
canonicalized. -/
def blockFallback (w : Nat) (op : BOp) (l r : Block) : Block :=
  canonBits (List.zipWith (opBool op) (l.toBitmap w) (r.toBitmap w))

/-- Modelled from the spec (§4.3): per-block-pair dispatch of the operation
engine, with the short-circuit rules (`Empty AND x = Empty`, `Full OR x =
Full`, `Full AND x = x`, `Empty OR x = x`, and their analogues); only when
both sides are `Bitmap`/`RunList` (or no identity applies) does the engine
perform an actual bit-level pass. -/
def blockOp (w : Nat) (op : BOp) (l r : Block) : Block :=
  match op, l, r with
  | .or, .empty, x => x
  | .or, x, .empty => x
  | .or, .full, _ => .full
  | .or, _, .full => .full
  | .and, .empty, _ => .empty
  | .and, _, .empty => .empty
  | .and, .full, x => x
  | .and, x, .full => x
  | .sub, .empty, _ => .empty
  | .sub, x, .empty => x
  | .sub, _, .full => .empty
  | .xor, .empty, x => x
  | .xor, x, .empty => x
  | op, l, r => blockFallback w op l r

/- ### BlockStore -/

/-- Modelled from the spec (§3): sparse collection of blocks indexed by block
number — a mapping from block index to `Block`, keys unique. -/
abbrev BlockStore : Type := List (Nat × Block)

/-- Lookup `get(index)` of the store never fails; an absent index yields `Empty`
(§4.1). -/
def BlockStore.find (s : BlockStore) (i : Nat) : Block :=
  match List.find? (fun p => p.1 == i) s with
  | some p => p.2
  | none => .empty

/-- Update `set(index, block)` replaces or inserts; an `Empty` block occupies no
storage (§3: missing index implies `Empty`). -/
def BlockStore.setBlock (s : BlockStore) (idx : Nat) (b : Block) : BlockStore :=
  let s' := List.filter (fun p => p.1 != idx) s
  match b with
  | .empty => s'
  | b => (idx, b) :: s'

/-- All keys present in the store. -/
def BlockStore.keys (s : BlockStore) : List Nat := s.map (fun p => p.1)

/-- Every stored block is structurally well-formed for width `w`. -/
abbrev BlockStore.wf (w : Nat) (s : BlockStore) : Prop :=
  ∀ p ∈ s, Block.wf w p.2

/- ### The operation engine over two stores -/

/-- Modelled from the spec (§4.3, §5.1): the operation engine applies one
boolean operator pairwise across two block stores, block index by block
index; blocks whose result is `Empty` occupy no storage. -/
def storeOp (w : Nat) (op : BOp) (l r : BlockStore) : BlockStore :=
  ((l.keys ++ r.keys).dedup).filterMap (fun i =>
    match blockOp w op (l.find i) (r.find i) with
    | .empty => none
    | b => some (i, b))

/- ### BitVector -/

/-- Modelled from the spec (§3): a logical set-of-integers abstraction with a
declared logical size bound and an exclusively owned block store. -/
structure BitVector where
  size : Nat
  store : BlockStore
deriving DecidableEq, Repr

/-- Structural well-formedness of a vector for width `w`. -/
abbrev BitVector.wf (w : Nat) (v : BitVector) : Prop := v.store.wf w

/-- Read `get(position)`: the logical content of the vector at a bit position;
position `i` lives at offset `i % w` of block `i / w`. -/
def BitVector.get (w : Nat) (v : BitVector) (i : Nat) : Bool :=
  (v.store.find (i / w)).get (i % w)

/-- Modelled from the spec: the default addressable size bound of a
newly-constructed vector (the concrete constant is a library default; no
claim depends on its value). -/
def id_max : Nat := 4294967295

/-- The empty vector: created empty, no block storage. -/
def BitVector.empty : BitVector := ⟨id_max, []⟩

/-- Mutation `set(position)` (§4.2): sets one bit, materializing the affected block
through its bitmap view and canonicalizing the result. -/
def BitVector.setBit (w : Nat) (v : BitVector) (p : Nat) : BitVector :=
  let b := v.store.find (p / w)
  let bits := (b.toBitmap w).set (p % w) true
  ⟨v.size, v.store.setBlock (p / w) (canonBits bits)⟩

/-- Modelled from the spec (§3, §6): construction from an explicit set of
integer positions. -/
def BitVector.ofList (w : Nat) (l : List Nat) : BitVector :=
  l.foldl (fun v p => BitVector.setBit w v p) BitVector.empty

/-- The sortedness hint for raw-array ingestion (§6). -/
inductive Hint where
  | BM_SORTED | BM_UNSORTED
deriving DecidableEq, Repr

/-- Modelled from the spec (§4.2): `set(array, hint)` inserts every position
of the array into the block store; the `SORTED` hint only selects the faster
single-pass merge, whose observable effect is the same per-position
insertion. -/
def BitVector.setArray (w : Nat) (v : BitVector) (arr : List Nat)
    (hint : Hint) : BitVector :=
  match hint with
  | .BM_SORTED => arr.foldl (fun acc p => BitVector.setBit w acc p) v
  | .BM_UNSORTED => arr.foldl (fun acc p => BitVector.setBit w acc p) v

/-- Resizing `resize(newSize)` (§4.2): grows or shrinks the logical size; shrinking
truncates, clearing bits at and beyond the new size. -/
def BitVector.resize (w : Nat) (v : BitVector) (n : Nat) : BitVector :=
  if n < v.size then
    ⟨n, v.store.filterMap (fun p =>
        if (p.1 + 1) * w ≤ n then some p
        else match canonBits (List.zipWith (fun bit j => bit && decide (p.1 * w + j < n))
              (p.2.toBitmap w) (List.range w)) with
          | .empty => none
          | b => some (p.1, b))⟩
  else ⟨n, v.store⟩

/-- The binary algebra operators (§4.2): delegate to the operation engine
over the two operands' block stores; the result's size is the maximum of
the operands' sizes. -/
def bvOp (w : Nat) (op : BOp) (A B : BitVector) : BitVector :=
  ⟨max A.size B.size, storeOp w op A.store B.store⟩

def BitVector.bit_or (w : Nat) (A B : BitVector) : BitVector := bvOp w .or A B

def BitVector.bit_and (w : Nat) (A B : BitVector) : BitVector := bvOp w .and A B

def BitVector.bit_sub (w : Nat) (A B : BitVector) : BitVector := bvOp w .sub A B

def BitVector.bit_xor (w : Nat) (A B : BitVector) : BitVector := bvOp w .xor A B

/-- The runtime operation codes of the generic combine entry point. -/
inductive OpCode where
  | BM_AND | BM_OR | BM_SUB | BM_XOR
deriving DecidableEq, Repr

/-- Entry point `combine_operation(other, opcode)` (§4.2): table-driven entry point
selecting among the same four operators via a runtime code. -/
def BitVector.combine_operation (w : Nat) (A B : BitVector)
    (code : OpCode) : BitVector :=
  match code with
  | .BM_AND => bvOp w .and A B
  | .BM_OR => bvOp w .or A B
  | .BM_SUB => bvOp w .sub A B
  | .BM_XOR => bvOp w .xor A B

/- ### RunList construction (§4.1) -/

/-- Modelled from the spec (§4.1): scan the block's bit positions in
ascending order and emit a toggle position each time the running value
flips. -/
def togglesAux (pos : Nat) (prev : Bool) : List Bool → List Nat
  | [] => []
  | b :: rest =>
      if b = prev then togglesAux (pos + 1) prev rest
      else pos :: togglesAux (pos + 1) b rest

def bitsToggles (bits : List Bool) : List Nat := togglesAux 0 false bits

/- ### optimize (§4.1) -/

/-- Modelled from the spec (§4.1, §9): the density threshold above which a
RunList is no larger than a bitmap — a policy parameter; higher compression
levels try harder. -/
def runThreshold (w level : Nat) : Nat := w / 4 + level

/-- Modelled from the spec (§4.1): `optimize` picks the smallest faithful
representation among `Empty`, `Full`, `Bitmap`, `RunList`, falling back to
`Bitmap` when the toggle count would exceed the density threshold. -/
def optimizeBlock (w level : Nat) (b : Block) : Block :=
  let bits := b.toBitmap w
  if bits.all (fun x => x = false) then .empty
  else if bits.all (fun x => x = true) then .full
  else
    let ts := bitsToggles bits
    if ts.length ≤ runThreshold w level then .runlist ts else .bitmap bits

/- ### Generic canonical store transforms -/

/-- One entry of a canonical store transform: the block image under `g`,
keyed by the entry's original index. -/
def entryMap (g : Block → Option Block) (p : Nat × Block) : Option (Nat × Block) :=
  (g p.2).map (fun b => (p.1, b))

/-- A store transform applying `g` to every stored block, dropping entries
`g` maps to `none`; keys are preserved. -/
def optStoreG (g : Block → Option Block) (s : BlockStore) : BlockStore :=
  s.filterMap (entryMap g)

/-- The block transform applied by the vector-level `optimize`. -/
def optG (w level : Nat) (b : Block) : Option Block :=
  match optimizeBlock w level b with
  | .empty => none
  | b' => some b'

/-- Vector-level `optimize(level)` (§4.1): rewrites every stored block to its most compact
faithful form; side effect only. -/
def BitVector.optimize (w level : Nat) (v : BitVector) : BitVector :=
  ⟨v.size, optStoreG (optG w level) v.store⟩

/- ### Serializer (§4.5, §6) -/

/-- Modelled from the spec (§6): the header's format marker; a buffer not
starting with it is a format failure. -/
def MARKER : Nat := 66

def encodeBit (b : Bool) : Nat := if b then 1 else 0

def decodeBit (n : Nat) : Bool := n != 0

/-- Modelled from the spec (§6): one encoded record per non-`Empty` block —
block index, variant tag, compressed payload. Tag 0 is `Full` (no payload),
tag 1 a `Bitmap` (payload: `w` bits), tag 2 a `RunList` (payload: toggle
count, then the toggles). -/
def encodeBlockRec (idx : Nat) : Block → List Nat
  | .empty => []
  | .full => [idx, 0]
  | .bitmap bits => idx :: 1 :: bits.map encodeBit
  | .runlist ts => idx :: 2 :: ts.length :: ts

/-- Modelled from the spec (§4.5, §6): the representation actually emitted
for a block at compression level `L`; higher levels re-run the block
optimizer for a more compact variant (the level must not affect decoded
logical content). -/
def serBlockRep (w L : Nat) (b : Block) : Block :=
  if 3 ≤ L then optimizeBlock w L b else b

/-- The store as re-represented for serialization at level `L`. -/
def serStore (w L : Nat) (s : BlockStore) : BlockStore :=
  s.map (fun p => (p.1, serBlockRep w L p.2))

/-- Encoding `serialize(vector, compression_level) -> bytes` (§4.5): a header (format
marker, total size) followed by one record per non-`Empty` block. -/
def serialize (w : Nat) (v : BitVector) (L : Nat) : List Nat :=
  MARKER :: v.size :: (serStore w L v.store).flatMap (fun p => encodeBlockRec p.1 p.2)

/- ### Deserializer (§4.6) -/

/-- The decode-failure taxonomy of the spec (§4.6): bad header, truncated
stream, unknown block-type tag. -/
inductive DecErr where
  | badHeader | truncated | unknownTag
deriving DecidableEq, Repr

/-- Canonicalization of a decoded RunList record (§4.1: stores never keep a
block whose content is equivalent to `Empty` under a payload variant). -/
def canonRun (w : Nat) (ts : List Nat) : Block :=
  let bits := (List.range w).map (runVal ts)
  if bits.all (fun x => x = false) then .empty
  else if bits.all (fun x => x = true) then .full
  else .runlist ts

/-- The streaming record parser (§4.6): reads one whole record at a time;
a failure (truncation, unknown tag) is reported at a record boundary, with
the records fully parsed so far. -/
def parseRecords (w : Nat) : List Nat → List (Nat × Block) × Option DecErr
  | [] => ([], none)
  | [_] => ([], some .truncated)
  | idx :: tag :: rest =>
      if tag = 0 then
        let r := parseRecords w rest
        ((idx, Block.full) :: r.1, r.2)
      else if tag = 1 then
        if rest.length < w then ([], some .truncated)
        else
          let bits := (rest.take w).map decodeBit
          let r := parseRecords w (rest.drop w)
          ((idx, canonBits bits) :: r.1, r.2)
      else if tag = 2 then
        match rest with
        | [] => ([], some .truncated)
        | len :: rest2 =>
            if rest2.length < len then ([], some .truncated)
            else
              let r := parseRecords w (rest2.drop len)
              ((idx, canonRun w (rest2.take len)) :: r.1, r.2)
      else ([], some .unknownTag)
termination_by l => l.length
decreasing_by
  · simp
    omega
  · simp [List.length_drop]
    omega
  · simp [List.length_drop]
    omega

/-- Modelled from the spec: fully decoding a buffer into a vector (decoding
with no operation applied): header check, then all records are materialized
into a fresh block store. -/
def decodeVec (w : Nat) (buf : List Nat) : Except DecErr BitVector :=
  match buf with
  | m :: sz :: rest =>
      if m = MARKER then
        match parseRecords w rest with
        | (recs, none) =>
            .ok ⟨sz, recs.foldl (fun st r => st.setBlock r.1 r.2) ([] : BlockStore)⟩
        | (_, some e) => .error e
      else .error .badHeader
  | _ => .error .badHeader

/-- Folding one decoded record into the destination store at the same index
using the operation engine's per-block dispatch (§4.6). -/
def applyRecord (w : Nat) (op : BOp) (st : BlockStore) (r : Nat × Block) : BlockStore :=
  st.setBlock r.1 (blockOp w op (st.find r.1) r.2)

/-- Modelled from the spec (§4.6): `deserialize(destination, bytes,
operation)` streams block by block, folding each decoded block into the
destination block at the same index, without materializing the decoded
vector.  For `AND`, destination blocks at indices the stream never mentions
correspond to `x AND Empty = Empty` and are cleared once the stream ends —
forced by the required observable equivalence with decode-then-combine.
On failure the partially combined destination is returned together with the
error, distinguishable from success. -/
def deserializeOp (w : Nat) (op : BOp) (dest : BitVector) (buf : List Nat) :
    BitVector × Option DecErr :=
  match buf with
  | m :: sz :: rest =>
      if m = MARKER then
        let pr := parseRecords w rest
        let st1 := pr.1.foldl (applyRecord w op) dest.store
        let st2 := if op = BOp.and ∧ pr.2 = none then
            st1.filter (fun p => decide (p.1 ∈ pr.1.map (fun r => r.1)))
          else st1
        (⟨max dest.size sz, st2⟩, pr.2)
      else (dest, some .badHeader)
  | _ => (dest, some .badHeader)

/-- The decoded (canonicalized) image of a serialized block. -/
def decG (w : Nat) : Block → Option Block
  | .empty => none
  | .full => some .full
  | .bitmap bits => some (canonBits bits)
  | .runlist ts => some (canonRun w ts)

/- ### Aggregator (§4.7) -/

/-- Modelled from the spec (§4.7): the aggregator holds the registered
source vectors and an optimization flag for a post-pass `optimize` on the
target. -/
structure Aggregator where
  sources : List BitVector
  opt : Bool
deriving Repr

def Aggregator.new : Aggregator := ⟨[], false⟩

/-- Registration `add(vectorRef)` records a source. -/
def Aggregator.add (a : Aggregator) (v : BitVector) : Aggregator :=
  ⟨a.sources ++ [v], a.opt⟩

/-- Flagging `set_optimization()` enables a post-pass `optimize` on the target. -/
def Aggregator.set_optimization (a : Aggregator) : Aggregator :=
  ⟨a.sources, true⟩

/-- Clearing `reset()` returns the aggregator to its newly-constructed state. -/
def Aggregator.reset (_ : Aggregator) : Aggregator := ⟨[], false⟩

/-- All block indices occupied by any registered source: the aggregator
interleaves its scan across all operands' block stores simultaneously. -/
def aggKeys (srcs : List BitVector) : List Nat :=
  (srcs.flatMap (fun s => BlockStore.keys s.store)).dedup

/-- A store built from a per-index block function over a fixed key set;
`Empty` results occupy no storage. -/
def keyedStore (ks : List Nat) (f : Nat → Block) : BlockStore :=
  ks.filterMap (fun i =>
    match f i with
    | .empty => none
    | b => some (i, b))

/-- The compression effort used by the aggregator's optional post-pass. -/
def aggOptLevel : Nat := 4

/-- Union `combine_or(target)` (§4.7): block-at-a-time multi-source union written
into the target (pre-existing content of the target is overwritten). -/
def Aggregator.combine_or (w : Nat) (a : Aggregator) : BitVector :=
  let srcs := a.sources
  let st := keyedStore (aggKeys srcs)
    (fun i => srcs.foldl (fun acc s => blockOp w .or acc (s.store.find i)) .empty)
  let v : BitVector := ⟨srcs.foldl (fun n s => max n s.size) 0, st⟩
  if a.opt then v.optimize w aggOptLevel else v

/-- Intersection `combine_and(target)` (§4.7): block-at-a-time multi-source intersection
written into the target.  AND over zero registered sources is a caller
error (§7); the model returns the empty vector there. -/
def Aggregator.combine_and (w : Nat) (a : Aggregator) : BitVector :=
  match a.sources with
  | [] => ⟨0, []⟩
  | s0 :: rest =>
      let st := keyedStore (aggKeys (s0 :: rest))
        (fun i => rest.foldl (fun acc s => blockOp w .and acc (s.store.find i))
          (s0.store.find i))
      let v : BitVector := ⟨(s0 :: rest).foldl (fun n s => max n s.size) 0, st⟩
      if a.opt then v.optimize w aggOptLevel else v

/- ### Combine with raw integer arrays (§4.4) -/

/-- Modelled from the spec (§4.4): `combine_or` over a raw range of unsigned
integers inserts each position of the range individually (the range need
not be sorted). -/
def combine_or_arr (w : Nat) (v : BitVector) (arr : List Nat) : BitVector :=
  arr.foldl (fun acc p => BitVector.setBit w acc p) v

/-- Modelled from the spec (§4.4): `combine_and` over a raw range keeps
exactly the vector's positions that occur in the range, as if the range
were first converted to a vector and intersected. -/
def combine_and_arr (w : Nat) (v : BitVector) (arr : List Nat) : BitVector :=
  ⟨v.size, (BitVector.ofList w (arr.filter (fun p => v.get w p))).store⟩

/- ### Block-store invariants (§3) and their preservation under decoding -/

/-- The spec's storage invariant for a stored block (§3): `Empty` blocks
occupy no storage, and no stored `Bitmap`/`RunList` holds content
equivalent to `Empty`. -/
def Block.storable (w : Nat) : Block → Prop
  | .empty => False
  | .full => True
  | .bitmap bits => bits.length = w ∧ ¬bits.all (fun x => x = false)
  | .runlist ts => ¬((List.range w).map (runVal ts)).all (fun x => x = false)

instance (w : Nat) (b : Block) : Decidable (b.storable w) :=
  match b with
  | .empty => isFalse (fun h => h)
  | .full => isTrue True.intro
  | .bitmap bits => inferInstanceAs
      (Decidable (bits.length = w ∧ ¬bits.all (fun x => x = false)))
  | .runlist ts => inferInstanceAs
      (Decidable (¬((List.range w).map (runVal ts)).all (fun x => x = false)))

/-- A block value that may legitimately be handed to `set(index, block)`:
either canonical `Empty` (erasing the index) or a storable block. -/
def storableOrEmpty (w : Nat) (b : Block) : Prop := b = .empty ∨ b.storable w

/-- The block-store invariants of the spec (§3): one block per occupied
index and every stored block storable. -/
def StoreInv (w : Nat) (s : BlockStore) : Prop :=
  (BlockStore.keys s).Nodup ∧ ∀ p ∈ s, Block.storable w p.2

instance (w : Nat) (s : BlockStore) : Decidable (StoreInv w s) := by
  unfold StoreInv
  infer_instance

/-! ## Theorems -/

/- ### Basic list lemmas used throughout -/

theorem getD_replicate (w j : Nat) (c : Bool) (hj : j < w) :
    (List.replicate w c).getD j false = c := by
  rw [List.getD_eq_getElem?_getD, List.getElem?_replicate]
  simp [hj]

theorem getD_range_map (w j : Nat) (f : Nat → Bool) (hj : j < w) :
    (((List.range w).map f).getD j false) = f j := by
  rw [List.getD_eq_getElem?_getD, List.getElem?_map, List.getElem?_range hj]
  rfl

theorem getD_zipWith (f : Bool → Bool → Bool) (as bs : List Bool) (j : Nat)
    (hja : j < as.length) (hjb : j < bs.length) :
    (List.zipWith f as bs).getD j false = f (as.getD j false) (bs.getD j false) := by
  rw [List.getD_eq_getElem?_getD, List.getD_eq_getElem?_getD, List.getD_eq_getElem?_getD,
    List.getElem?_zipWith, List.getElem?_eq_getElem hja, List.getElem?_eq_getElem hjb]
  rfl

theorem all_getD_false (bits : List Bool) (j : Nat)
    (h : bits.all (fun b => b = false)) : bits.getD j false = false := by
  induction bits generalizing j with
  | nil => simp
  | cons b bs ih =>
      simp only [List.all_cons, Bool.and_eq_true, decide_eq_true_eq] at h
      cases j with
      | zero => simpa using h.1
      | succ j' => simpa using ih j' (by simpa using h.2)

theorem all_getD_true (bits : List Bool) (j : Nat) (hj : j < bits.length)
    (h : bits.all (fun b => b = true)) : bits.getD j false = true := by
  induction bits generalizing j with
  | nil => simp at hj
  | cons b bs ih =>
      simp only [List.all_cons, Bool.and_eq_true, decide_eq_true_eq] at h
      cases j with
      | zero => simpa using h.1
      | succ j' => simpa using ih j' (by simpa using hj) (by simpa using h.2)

/- ### Content lemmas for the block layer -/

/-- Canonicalization via `canonBits` preserves logical content at every in-range offset. -/
theorem canonBits_get (bits : List Bool) (j : Nat) (hj : j < bits.length) :
    (canonBits bits).get j = bits.getD j false := by
  unfold canonBits
  by_cases h0 : bits.all (fun b => b = false)
  · rw [if_pos h0, all_getD_false bits j h0]
    rfl
  · rw [if_neg h0]
    by_cases h1 : bits.all (fun b => b = true)
    · rw [if_pos h1, all_getD_true bits j hj h1]
      rfl
    · rw [if_neg h1]
      rfl

/-- The transient bitmap view agrees with the block's content at every
in-range offset. -/
theorem toBitmap_getD (w : Nat) (b : Block) (j : Nat) (hw : b.wf w) (hj : j < w) :
    (b.toBitmap w).getD j false = b.get j := by
  cases b with
  | empty =>
      show (List.replicate w false).getD j false = false
      rw [getD_replicate w j false hj]
  | full =>
      show (List.replicate w true).getD j false = true
      rw [getD_replicate w j true hj]
  | bitmap bits => rfl
  | runlist ts =>
      show ((List.range w).map (runVal ts)).getD j false = runVal ts j
      rw [getD_range_map w j _ hj]

theorem toBitmap_length (w : Nat) (b : Block) (hw : b.wf w) :
    (b.toBitmap w).length = w := by
  cases b with
  | empty => simp [Block.toBitmap]
  | full => simp [Block.toBitmap]
  | bitmap bits => simpa [Block.toBitmap] using hw
  | runlist ts => simp [Block.toBitmap]

/-- The bit-level fallback computes the pointwise boolean combination. -/
theorem blockFallback_get (w : Nat) (op : BOp) (l r : Block) (j : Nat)
    (hl : l.wf w) (hr : r.wf w) (hj : j < w) :
    (blockFallback w op l r).get j = opBool op (l.get j) (r.get j) := by
  unfold blockFallback
  rw [canonBits_get _ j
    (by rw [List.length_zipWith, toBitmap_length w l hl, toBitmap_length w r hr]; omega)]
  rw [getD_zipWith _ _ _ j (by rw [toBitmap_length w l hl]; omega)
    (by rw [toBitmap_length w r hr]; omega)]
  rw [toBitmap_getD w l j hl hj, toBitmap_getD w r j hr hj]

/-- Correctness of the per-block dispatch: every short-circuit rule and the
fallback compute the pointwise boolean combination of the operands. -/
theorem blockOp_get (w : Nat) (op : BOp) (l r : Block) (j : Nat)
    (hl : l.wf w) (hr : r.wf w) (hj : j < w) :
    (blockOp w op l r).get j = opBool op (l.get j) (r.get j) := by
  have hfb := blockFallback_get w op l r j hl hr hj
  cases op <;> cases l <;> cases r <;>
    simp_all [blockOp, opBool, Block.get]

/-- Well-formedness is preserved by the per-block dispatch. -/
theorem blockOp_wf (w : Nat) (op : BOp) (l r : Block)
    (hl : l.wf w) (hr : r.wf w) : (blockOp w op l r).wf w := by
  have hfb : (blockFallback w op l r).wf w := by
    unfold blockFallback canonBits
    by_cases h0 : (List.zipWith (opBool op) (l.toBitmap w) (r.toBitmap w)).all
        (fun b => b = false)
    · rw [if_pos h0]; trivial
    · rw [if_neg h0]
      by_cases h1 : (List.zipWith (opBool op) (l.toBitmap w) (r.toBitmap w)).all
          (fun b => b = true)
      · rw [if_pos h1]; trivial
      · rw [if_neg h1]
        show (List.zipWith (opBool op) (l.toBitmap w) (r.toBitmap w)).length = w
        rw [List.length_zipWith, toBitmap_length w l hl, toBitmap_length w r hr]
        omega
  cases op <;> cases l <;> cases r <;> simp_all [blockOp, Block.wf]

theorem find?_filter_ne (s : List (Nat × Block)) (idx i : Nat) (h : i ≠ idx) :
    List.find? (fun p => p.1 == i) (List.filter (fun p => p.1 != idx) s) =
      List.find? (fun p => p.1 == i) s := by
  induction s with
  | nil => rfl
  | cons q s ih =>
      by_cases hq : q.1 = i
      · have h1 : (q.1 != idx) = true := by simp [hq, h]
        have h2 : (q.1 == i) = true := by simp [hq]
        simp [List.filter_cons, h1, List.find?_cons, h2]
      · have h2 : (q.1 == i) = false := by simp [hq]
        by_cases hq2 : q.1 = idx
        · have h1 : (q.1 != idx) = false := by simp [hq2]
          simp [List.filter_cons, h1, List.find?_cons, h2, ih]
        · have h1 : (q.1 != idx) = true := by simp [hq2]
          simp [List.filter_cons, h1, List.find?_cons, h2, ih]

theorem find?_filter_self (s : List (Nat × Block)) (idx : Nat) :
    List.find? (fun p => p.1 == idx) (List.filter (fun p => p.1 != idx) s) = none := by
  rw [List.find?_eq_none]
  intro p hp
  have := List.of_mem_filter hp
  simp at this
  simp [this]

/-- The fundamental lookup lemma for `setBlock`: reading back gives the block
just stored (with `Empty` for an erased index), other indices are untouched. -/
theorem find_setBlock (s : BlockStore) (idx : Nat) (b : Block) (i : Nat) :
    (s.setBlock idx b).find i = if i = idx then b else s.find i := by
  by_cases h : i = idx
  · subst h
    cases b with
    | empty =>
        simp only [BlockStore.setBlock, BlockStore.find, find?_filter_self]
        simp
    | full =>
        simp [BlockStore.setBlock, BlockStore.find, List.find?_cons]
    | bitmap bits =>
        simp [BlockStore.setBlock, BlockStore.find, List.find?_cons]
    | runlist ts =>
        simp [BlockStore.setBlock, BlockStore.find, List.find?_cons]
  · rw [if_neg h]
    cases b with
    | empty =>
        simp only [BlockStore.setBlock, BlockStore.find]
        rw [find?_filter_ne s idx i h]
    | full =>
        have hne : ((idx, Block.full).1 == i) = false := by
          simp only [beq_eq_false_iff_ne, ne_eq]
          exact fun hh => h hh.symm
        simp only [BlockStore.setBlock, BlockStore.find, List.find?_cons, hne]
        rw [find?_filter_ne s idx i h]
    | bitmap bits =>
        have hne : ((idx, Block.bitmap bits).1 == i) = false := by
          simp only [beq_eq_false_iff_ne, ne_eq]
          exact fun hh => h hh.symm
        simp only [BlockStore.setBlock, BlockStore.find, List.find?_cons, hne]
        rw [find?_filter_ne s idx i h]
    | runlist ts =>
        have hne : ((idx, Block.runlist ts).1 == i) = false := by
          simp only [beq_eq_false_iff_ne, ne_eq]
          exact fun hh => h hh.symm
        simp only [BlockStore.setBlock, BlockStore.find, List.find?_cons, hne]
        rw [find?_filter_ne s idx i h]

/-- A looked-up block of a well-formed store is well-formed. -/
theorem find_wf (w : Nat) (s : BlockStore) (i : Nat) (hs : s.wf w) :
    (s.find i).wf w := by
  unfold BlockStore.find
  cases hfind : List.find? (fun p => p.1 == i) s with
  | none => trivial
  | some p => exact hs p (List.mem_of_find?_eq_some hfind)

/-- Updating via `setBlock` preserves store well-formedness when the stored block is
well-formed. -/
theorem setBlock_wf (w : Nat) (s : BlockStore) (idx : Nat) (b : Block)
    (hs : s.wf w) (hb : b.wf w) : (s.setBlock idx b).wf w := by
  intro p hp
  cases b with
  | empty => exact hs p (List.mem_of_mem_filter hp)
  | full =>
      rcases List.mem_cons.1 hp with h | h
      · subst h; exact hb
      · exact hs p (List.mem_of_mem_filter h)
  | bitmap bits =>
      rcases List.mem_cons.1 hp with h | h
      · subst h; exact hb
      · exact hs p (List.mem_of_mem_filter h)
  | runlist ts =>
      rcases List.mem_cons.1 hp with h | h
      · subst h; exact hb
      · exact hs p (List.mem_of_mem_filter h)

theorem storeOpF_eq (w : Nat) (op : BOp) (l r : BlockStore) (k : Nat)
    (p : Nat × Block)
    (h : (match blockOp w op (l.find k) (r.find k) with
          | .empty => none
          | b => some (k, b)) = some p) :
    p.1 = k ∧ p.2 = blockOp w op (l.find k) (r.find k) := by
  cases hb : blockOp w op (l.find k) (r.find k) <;> rw [hb] at h
  · exact Option.noConfusion h
  · injection h with h'
    subst h'
    exact ⟨rfl, rfl⟩
  · injection h with h'
    subst h'
    exact ⟨rfl, rfl⟩
  · injection h with h'
    subst h'
    exact ⟨rfl, rfl⟩

theorem find?_filterMap_keyed (ks : List Nat) (F : Nat → Option (Nat × Block))
    (hF : ∀ k p, F k = some p → p.1 = k) (hnd : ks.Nodup) (i : Nat) :
    List.find? (fun p => p.1 == i) (ks.filterMap F) =
      if i ∈ ks then F i else none := by
  induction ks with
  | nil => simp
  | cons k ks ih =>
      have hnd' : ks.Nodup := (List.nodup_cons.1 hnd).2
      have hknot : k ∉ ks := (List.nodup_cons.1 hnd).1
      cases hFk : F k with
      | none =>
          rw [List.filterMap_cons_none hFk, ih hnd']
          by_cases hik : i = k
          · subst hik
            have : i ∉ ks := hknot
            simp [this, hFk]
          · simp [List.mem_cons, hik]
      | some p =>
          have hpk : p.1 = k := hF k p hFk
          rw [List.filterMap_cons_some hFk]
          by_cases hik : i = k
          · subst hik
            have hmatch : (p.1 == i) = true := by simp [hpk]
            simp [List.find?_cons, hmatch, hFk, hpk]
          · have hmatch : (p.1 == i) = false := by simp [hpk, Ne.symm hik]
            simp only [List.find?_cons, hmatch]
            rw [ih hnd']
            simp [List.mem_cons, hik]

theorem find_eq_empty_of_not_mem_keys (s : BlockStore) (i : Nat)
    (h : i ∉ s.keys) : s.find i = .empty := by
  unfold BlockStore.find
  have : List.find? (fun p => p.1 == i) s = none := by
    rw [List.find?_eq_none]
    intro p hp
    simp only [beq_eq_false_iff_ne, ne_eq, Bool.not_eq_true]
    intro hpi
    exact h (by simpa [BlockStore.keys, hpi.symm] using List.mem_map_of_mem (fun q => q.1) hp)
  rw [this]

theorem blockOp_empty_empty (w : Nat) (op : BOp) :
    blockOp w op .empty .empty = .empty := by
  cases op <;> rfl

/-- The fundamental lookup lemma of the operation engine: the combined
store's block at any index is the per-block combination of the operands'
blocks at that index. -/
theorem find_storeOp (w : Nat) (op : BOp) (l r : BlockStore) (i : Nat) :
    (storeOp w op l r).find i = blockOp w op (l.find i) (r.find i) := by
  have hfind : List.find? (fun p => p.1 == i) (storeOp w op l r) =
      if i ∈ (l.keys ++ r.keys).dedup then
        (match blockOp w op (l.find i) (r.find i) with
          | .empty => none
          | b => some (i, b))
      else none :=
    find?_filterMap_keyed _ _ (fun k p h => (storeOpF_eq w op l r k p h).1)
      (List.nodup_dedup _) i
  show (match List.find? (fun p => p.1 == i) (storeOp w op l r) with
        | some p => p.2
        | none => Block.empty) = blockOp w op (l.find i) (r.find i)
  rw [hfind]
  by_cases hmem : i ∈ (l.keys ++ r.keys).dedup
  · rw [if_pos hmem]
    cases hb : blockOp w op (l.find i) (r.find i) <;> simp
  · rw [if_neg hmem]
    have hil : i ∉ l.keys := fun h => hmem (List.mem_dedup.2 (List.mem_append_left _ h))
    have hir : i ∉ r.keys := fun h => hmem (List.mem_dedup.2 (List.mem_append_right _ h))
    rw [find_eq_empty_of_not_mem_keys l i hil, find_eq_empty_of_not_mem_keys r i hir,
      blockOp_empty_empty]

theorem storeOp_wf (w : Nat) (op : BOp) (l r : BlockStore)
    (hl : l.wf w) (hr : r.wf w) : (storeOp w op l r).wf w := by
  intro p hp
  rcases List.mem_filterMap.1 hp with ⟨k, _, hFk⟩
  rw [(storeOpF_eq w op l r k p hFk).2]
  exact blockOp_wf w op _ _ (find_wf w l k hl) (find_wf w r k hr)

/- ### Per-position semantics of the vector layer -/

theorem bvOp_wf (w : Nat) (op : BOp) (A B : BitVector)
    (hA : A.wf w) (hB : B.wf w) : (bvOp w op A B).wf w :=
  storeOp_wf w op A.store B.store hA hB

/-- Central lemma: the engine computes the pointwise boolean combination at
every bit position. -/
theorem bvOp_get (w : Nat) (op : BOp) (A B : BitVector) (i : Nat)
    (hw : 0 < w) (hA : A.wf w) (hB : B.wf w) :
    (bvOp w op A B).get w i = opBool op (A.get w i) (B.get w i) := by
  unfold bvOp BitVector.get
  rw [find_storeOp]
  exact blockOp_get w op _ _ (i % w) (find_wf w A.store (i / w) hA)
    (find_wf w B.store (i / w) hB) (Nat.mod_lt i hw)

theorem div_mod_eq_iff (w i p : Nat) (hw : 0 < w) :
    (i / w = p / w ∧ i % w = p % w) ↔ i = p := by
  constructor
  · rintro ⟨h1, h2⟩
    have hi := Nat.div_add_mod i w
    have hp := Nat.div_add_mod p w
    rw [h1, h2] at hi
    omega
  · rintro rfl
    exact ⟨rfl, rfl⟩

theorem canonBits_wf (w : Nat) (bits : List Bool) (h : bits.length = w) :
    (canonBits bits).wf w := by
  unfold canonBits
  by_cases h0 : bits.all (fun b => b = false)
  · rw [if_pos h0]; trivial
  · rw [if_neg h0]
    by_cases h1 : bits.all (fun b => b = true)
    · rw [if_pos h1]; trivial
    · rw [if_neg h1]; exact h

theorem setBit_wf (w : Nat) (v : BitVector) (p : Nat)
    (hv : v.wf w) (hw : 0 < w) : (v.setBit w p).wf w := by
  unfold BitVector.setBit
  refine setBlock_wf w v.store (p / w) _ hv ?_
  refine canonBits_wf w _ ?_
  rw [List.length_set, toBitmap_length w _ (find_wf w v.store (p / w) hv)]

theorem setBit_get (w : Nat) (v : BitVector) (p i : Nat)
    (hw : 0 < w) (hv : v.wf w) :
    (v.setBit w p).get w i = if i = p then true else v.get w i := by
  unfold BitVector.setBit BitVector.get
  simp only
  rw [find_setBlock]
  by_cases hdiv : i / w = p / w
  · rw [if_pos hdiv]
    have hlen : ((v.store.find (p / w)).toBitmap w).length = w :=
      toBitmap_length w _ (find_wf w v.store (p / w) hv)
    rw [canonBits_get _ (i % w) (by rw [List.length_set, hlen]; exact Nat.mod_lt i hw)]
    rw [List.getD_eq_getElem?_getD, List.getElem?_set]
    by_cases hmod : p % w = i % w
    · have hip : i = p := (div_mod_eq_iff w i p hw).1 ⟨hdiv, hmod.symm⟩
      rw [if_pos hip, if_pos hmod, if_pos (by rw [hlen]; exact Nat.mod_lt p hw)]
      rfl
    · have hip : i ≠ p := fun h => hmod (by rw [h])
      rw [if_neg hip, if_neg hmod, ← List.getD_eq_getElem?_getD,
        toBitmap_getD w _ (i % w) (find_wf w v.store (p / w) hv) (Nat.mod_lt i hw), hdiv]
  · rw [if_neg hdiv]
    have hip : i ≠ p := fun h => hdiv (by rw [h])
    rw [if_neg hip]

theorem foldl_setBit_wf (w : Nat) (l : List Nat) (v : BitVector)
    (hw : 0 < w) (hv : v.wf w) :
    (l.foldl (fun acc p => BitVector.setBit w acc p) v).wf w := by
  induction l generalizing v with
  | nil => exact hv
  | cons p l ih => exact ih _ (setBit_wf w v p hv hw)

theorem foldl_setBit_get (w : Nat) (l : List Nat) (v : BitVector) (i : Nat)
    (hw : 0 < w) (hv : v.wf w) :
    (l.foldl (fun acc p => BitVector.setBit w acc p) v).get w i =
      (v.get w i || decide (i ∈ l)) := by
  induction l generalizing v with
  | nil => simp
  | cons p l ih =>
      rw [List.foldl_cons, ih _ (setBit_wf w v p hv hw), setBit_get w v p i hw hv]
      by_cases hip : i = p
      · simp [hip]
      · simp [hip, List.mem_cons]

theorem empty_get (w i : Nat) : BitVector.empty.get w i = false := rfl

theorem ofList_wf (w : Nat) (l : List Nat) (hw : 0 < w) :
    (BitVector.ofList w l).wf w :=
  foldl_setBit_wf w l BitVector.empty hw
    (by intro p hp; exact absurd hp (List.not_mem_nil p))

theorem ofList_get (w : Nat) (l : List Nat) (i : Nat) (hw : 0 < w) :
    (BitVector.ofList w l).get w i = decide (i ∈ l) := by
  unfold BitVector.ofList
  rw [foldl_setBit_get w l BitVector.empty i hw
    (by intro p hp; exact absurd hp (List.not_mem_nil p)), empty_get]
  simp

theorem togglesAux_ge (bits : List Bool) (pos : Nat) (prev : Bool) :
    ∀ t ∈ togglesAux pos prev bits, pos ≤ t := by
  induction bits generalizing pos prev with
  | nil => intro t ht; simp [togglesAux] at ht
  | cons b rest ih =>
      intro t ht
      unfold togglesAux at ht
      by_cases hb : b = prev
      · rw [if_pos hb] at ht
        have := ih (pos + 1) prev t ht
        omega
      · rw [if_neg hb] at ht
        rcases List.mem_cons.1 ht with h | h
        · omega
        · have := ih (pos + 1) b t h
          omega

theorem parity_succ (n : Nat) :
    decide ((n + 1) % 2 = 1) = !decide (n % 2 = 1) := by
  by_cases h : n % 2 = 1 <;> simp [h] <;> omega

/-- Correctness of the toggle scan: the running value reconstructed from the
emitted toggles reproduces the scanned bits. -/
theorem togglesAux_spec (bits : List Bool) (pos : Nat) (prev : Bool) (j : Nat)
    (hj : j < bits.length) :
    xor prev (runVal (togglesAux pos prev bits) (pos + j)) = bits.getD j false := by
  induction bits generalizing pos prev j with
  | nil => simp at hj
  | cons b rest ih =>
      unfold togglesAux
      by_cases hb : b = prev
      · rw [if_pos hb]
        cases j with
        | zero =>
            have hzero : (togglesAux (pos + 1) prev rest).countP
                (fun t => decide (t ≤ pos)) = 0 := by
              rw [List.countP_eq_zero]
              intro t ht
              have := togglesAux_ge rest (pos + 1) prev t ht
              simp only [decide_eq_true_eq]
              omega
            simp [runVal, hzero, hb]
        | succ j' =>
            have hih := ih (pos + 1) prev j' (by simpa using hj)
            rw [show pos + (j' + 1) = pos + 1 + j' by omega]
            simpa using hih
      · rw [if_neg hb]
        cases j with
        | zero =>
            have hzero : (togglesAux (pos + 1) b rest).countP
                (fun t => decide (t ≤ pos)) = 0 := by
              rw [List.countP_eq_zero]
              intro t ht
              have := togglesAux_ge rest (pos + 1) b t ht
              simp only [decide_eq_true_eq]
              omega
            have hby : b = !prev := by
              cases b <;> cases prev <;> simp_all
            rw [hby] at hzero
            simp [runVal, List.countP_cons, hzero, hby]
        | succ j' =>
            have hih := ih (pos + 1) b j' (by simpa using hj)
            have hcount : (pos :: togglesAux (pos + 1) b rest).countP
                  (fun t => decide (t ≤ pos + (j' + 1))) =
                (togglesAux (pos + 1) b rest).countP
                  (fun t => decide (t ≤ pos + (j' + 1))) + 1 := by
              rw [List.countP_cons]
              simp
            have hby : b = !prev := by
              cases b <;> cases prev <;> simp_all
            simp only [runVal] at hih ⊢
            rw [hcount, parity_succ]
            rw [show pos + (j' + 1) = pos + 1 + j' by omega]
            rw [show (b :: rest).getD (j' + 1) false = rest.getD j' false from rfl]
            rw [← hih, hby]
            cases prev <;> simp

/-- Correctness of `bitsToggles`: the RunList reproduces the bitmap. -/
theorem bitsToggles_runVal (bits : List Bool) (j : Nat) (hj : j < bits.length) :
    runVal (bitsToggles bits) j = bits.getD j false := by
  have := togglesAux_spec bits 0 false j hj
  simpa [bitsToggles] using this

theorem optimizeBlock_empty (w level : Nat) :
    optimizeBlock w level .empty = .empty := by
  unfold optimizeBlock
  rw [if_pos]
  rw [List.all_eq_true]
  intro x hx
  have := (List.mem_replicate.1 hx).2
  simp [this]

/-- Optimization never changes a block's logical content (§4.1). -/
theorem optimizeBlock_get (w level : Nat) (b : Block) (j : Nat)
    (hb : b.wf w) (hj : j < w) :
    (optimizeBlock w level b).get j = b.get j := by
  unfold optimizeBlock
  have hlen : (b.toBitmap w).length = w := toBitmap_length w b hb
  have hgd := toBitmap_getD w b j hb hj
  by_cases h0 : (b.toBitmap w).all (fun x => x = false)
  · rw [if_pos h0]
    have := all_getD_false (b.toBitmap w) j h0
    rw [← hgd, this]
    rfl
  · rw [if_neg h0]
    by_cases h1 : (b.toBitmap w).all (fun x => x = true)
    · rw [if_pos h1]
      have := all_getD_true (b.toBitmap w) j (by omega) h1
      rw [← hgd, this]
      rfl
    · rw [if_neg h1]
      by_cases h2 : (bitsToggles (b.toBitmap w)).length ≤ runThreshold w level
      · rw [if_pos h2]
        show runVal (bitsToggles (b.toBitmap w)) j = b.get j
        rw [bitsToggles_runVal (b.toBitmap w) j (by omega), hgd]
      · rw [if_neg h2]
        show (b.toBitmap w).getD j false = b.get j
        exact hgd

theorem optimizeBlock_wf (w level : Nat) (b : Block) (hb : b.wf w) :
    (optimizeBlock w level b).wf w := by
  unfold optimizeBlock
  by_cases h0 : (b.toBitmap w).all (fun x => x = false)
  · rw [if_pos h0]; trivial
  · rw [if_neg h0]
    by_cases h1 : (b.toBitmap w).all (fun x => x = true)
    · rw [if_pos h1]; trivial
    · rw [if_neg h1]
      by_cases h2 : (bitsToggles (b.toBitmap w)).length ≤ runThreshold w level
      · rw [if_pos h2]; trivial
      · rw [if_neg h2]
        exact toBitmap_length w b hb

theorem find_cons (k : Nat) (b : Block) (s : BlockStore) (i : Nat) :
    BlockStore.find ((k, b) :: s) i = if k = i then b else s.find i := by
  by_cases h : k = i
  · have : ((k, b).1 == i) = true := by simp [h]
    simp [BlockStore.find, List.find?_cons, this, h]
  · have : ((k, b).1 == i) = false := by simp [h]
    simp [BlockStore.find, List.find?_cons, this, h]

theorem entryMap_none (g : Block → Option Block) (p : Nat × Block)
    (h : g p.2 = none) : entryMap g p = none := by
  unfold entryMap
  rw [h]
  rfl

theorem entryMap_some (g : Block → Option Block) (p : Nat × Block) (b : Block)
    (h : g p.2 = some b) : entryMap g p = some (p.1, b) := by
  unfold entryMap
  rw [h]
  rfl

theorem keys_optStoreG_subset (g : Block → Option Block) (s : BlockStore) (i : Nat)
    (h : i ∈ (optStoreG g s).keys) : i ∈ s.keys := by
  rcases List.mem_map.1 h with ⟨p, hp, hpi⟩
  rcases List.mem_filterMap.1 hp with ⟨q, hq, hgq⟩
  cases hg : g q.2 with
  | none => rw [entryMap_none g q hg] at hgq; exact absurd hgq (by simp)
  | some b =>
      rw [entryMap_some g q b hg] at hgq
      have : p.1 = q.1 := by
        injection hgq with h2
        rw [← h2]
      exact List.mem_map.2 ⟨q, hq, by rw [← hpi, this]⟩

theorem keys_optStoreG_sublist (g : Block → Option Block) (s : BlockStore) :
    (optStoreG g s).keys.Sublist s.keys := by
  induction s with
  | nil => exact List.Sublist.refl _
  | cons q s ih =>
      cases hg : g q.2 with
      | none =>
          unfold optStoreG
          rw [List.filterMap_cons_none (entryMap_none g q hg)]
          exact List.Sublist.trans ih (List.sublist_cons_self _ _)
      | some b =>
          unfold optStoreG
          rw [List.filterMap_cons_some (entryMap_some g q b hg)]
          exact List.Sublist.cons₂ _ ih

theorem optStoreG_nodup (g : Block → Option Block) (s : BlockStore)
    (h : s.keys.Nodup) : (optStoreG g s).keys.Nodup :=
  (keys_optStoreG_sublist g s).nodup h

theorem optStoreG_wf (w : Nat) (g : Block → Option Block) (s : BlockStore)
    (hs : s.wf w) (hg : ∀ b b', b.wf w → g b = some b' → b'.wf w) :
    (optStoreG g s).wf w := by
  intro p hp
  rcases List.mem_filterMap.1 hp with ⟨q, hq, hgq⟩
  cases hgq2 : g q.2 with
  | none => rw [entryMap_none g q hgq2] at hgq; exact absurd hgq (by simp)
  | some b =>
      rw [entryMap_some g q b hgq2] at hgq
      have : p.2 = b := by
        injection hgq with h2
        rw [← h2]
      rw [this]
      exact hg q.2 b (hs q hq) hgq2

theorem find_eq_of_mem_find? (s : BlockStore) (i : Nat) :
    i ∉ s.keys → s.find i = .empty :=
  find_eq_empty_of_not_mem_keys s i

/-- The fundamental lookup lemma for canonical store transforms. -/
theorem find_optStoreG (g : Block → Option Block) (hg : g .empty = none)
    (s : BlockStore) (hnd : s.keys.Nodup) (i : Nat) :
    (optStoreG g s).find i =
      match g (s.find i) with
      | some b => b
      | none => .empty := by
  induction s with
  | nil =>
      have h0 : BlockStore.find ([] : BlockStore) i = .empty := rfl
      show BlockStore.find ([] : BlockStore) i = _
      rw [h0, hg]
  | cons q s ih =>
      have hkeys : BlockStore.keys (q :: s) = q.1 :: BlockStore.keys s := rfl
      rw [hkeys] at hnd
      have hnd' : (BlockStore.keys s).Nodup := (List.nodup_cons.1 hnd).2
      have hqnot : q.1 ∉ BlockStore.keys s := (List.nodup_cons.1 hnd).1
      have hfq : BlockStore.find (q :: s) i = if q.1 = i then q.2
          else BlockStore.find s i := by
        have := find_cons q.1 q.2 s i
        simpa using this
      by_cases hqi : q.1 = i
      · rw [hfq, if_pos hqi]
        cases hgq : g q.2 with
        | none =>
            unfold optStoreG
            rw [List.filterMap_cons_none (entryMap_none g q hgq)]
            have hnot : i ∉ (optStoreG g s).keys := fun hmem =>
              hqnot (by rw [hqi]; exact keys_optStoreG_subset g s i hmem)
            show BlockStore.find (optStoreG g s) i = _
            rw [find_eq_empty_of_not_mem_keys _ i hnot]
        | some b =>
            unfold optStoreG
            rw [List.filterMap_cons_some (entryMap_some g q b hgq)]
            show BlockStore.find ((q.1, b) :: optStoreG g s) i = _
            rw [find_cons, if_pos hqi]
      · rw [hfq, if_neg hqi]
        cases hgq : g q.2 with
        | none =>
            unfold optStoreG
            rw [List.filterMap_cons_none (entryMap_none g q hgq)]
            exact ih hnd'
        | some b =>
            unfold optStoreG
            rw [List.filterMap_cons_some (entryMap_some g q b hgq)]
            show BlockStore.find ((q.1, b) :: optStoreG g s) i = _
            rw [find_cons, if_neg hqi]
            exact ih hnd'

theorem optG_empty (w level : Nat) : optG w level .empty = none := by
  unfold optG
  rw [optimizeBlock_empty]

theorem optG_get (w level : Nat) (b : Block) (j : Nat) (hb : b.wf w) (hj : j < w) :
    (match optG w level b with
      | some b' => b'
      | none => Block.empty).get j = b.get j := by
  unfold optG
  cases hopt : optimizeBlock w level b with
  | empty =>
      have := optimizeBlock_get w level b j hb hj
      rw [hopt] at this
      exact this
  | full =>
      have := optimizeBlock_get w level b j hb hj
      rw [hopt] at this
      exact this
  | bitmap bits =>
      have := optimizeBlock_get w level b j hb hj
      rw [hopt] at this
      exact this
  | runlist ts =>
      have := optimizeBlock_get w level b j hb hj
      rw [hopt] at this
      exact this

/-- Optimization preserves the logical content of the vector at every
position. -/
theorem optimize_get (w level : Nat) (v : BitVector) (i : Nat)
    (hw : 0 < w) (hv : v.wf w) (hnd : v.store.keys.Nodup) :
    (v.optimize w level).get w i = v.get w i := by
  unfold BitVector.optimize BitVector.get
  simp only
  rw [find_optStoreG (optG w level) (optG_empty w level) v.store hnd]
  exact optG_get w level _ (i % w) (find_wf w v.store (i / w) hv) (Nat.mod_lt i hw)

/- ### Parser step lemmas -/

theorem parse_nil (w : Nat) : parseRecords w [] = ([], none) := by
  rw [parseRecords.eq_def]

theorem parse_single (w x : Nat) : parseRecords w [x] = ([], some .truncated) := by
  rw [parseRecords.eq_def]

theorem parse_full (w idx : Nat) (tail : List Nat) :
    parseRecords w (idx :: 0 :: tail) =
      ((idx, Block.full) :: (parseRecords w tail).1, (parseRecords w tail).2) := by
  rw [parseRecords.eq_def]
  rfl

theorem parse_bitmap (w idx : Nat) (pay tail : List Nat) (hlen : pay.length = w) :
    parseRecords w (idx :: 1 :: (pay ++ tail)) =
      ((idx, canonBits (pay.map decodeBit)) :: (parseRecords w tail).1,
        (parseRecords w tail).2) := by
  rw [parseRecords.eq_def]
  have h1 : ¬(pay ++ tail).length < w := by
    rw [List.length_append, hlen]
    omega
  simp only [if_neg (by omega : ¬(1 : Nat) = 0), if_pos rfl, if_neg h1,
    List.take_left' hlen, List.drop_left' hlen, if_true]

theorem parse_run (w idx : Nat) (ts tail : List Nat) :
    parseRecords w (idx :: 2 :: ts.length :: (ts ++ tail)) =
      ((idx, canonRun w ts) :: (parseRecords w tail).1,
        (parseRecords w tail).2) := by
  rw [parseRecords.eq_def]
  have h1 : ¬(ts ++ tail).length < ts.length := by
    rw [List.length_append]
    omega
  simp only [if_neg (by omega : ¬(2 : Nat) = 0), if_neg (by omega : ¬(2 : Nat) = 1),
    if_pos rfl, if_neg h1, List.take_left, List.drop_left, if_true]

theorem map_decodeBit_encodeBit (bits : List Bool) :
    (bits.map encodeBit).map decodeBit = bits := by
  rw [List.map_map]
  have h : decodeBit ∘ encodeBit = id := by
    funext b
    cases b <;> rfl
  rw [h, List.map_id]

/-- Parsing the concatenated records of a store yields exactly the
canonicalized store, with no error. -/
theorem parse_encodeStore (w : Nat) (entries : BlockStore) (hwf : entries.wf w) :
    parseRecords w (entries.flatMap (fun p => encodeBlockRec p.1 p.2)) =
      (optStoreG (decG w) entries, none) := by
  induction entries with
  | nil =>
      rw [List.flatMap_nil, parse_nil]
      rfl
  | cons q s ih =>
      have hq : Block.wf w q.2 := hwf q (List.mem_cons_self q s)
      have hs : BlockStore.wf w s := fun p hp => hwf p (List.mem_cons_of_mem q hp)
      have hih := ih hs
      obtain ⟨k, b⟩ := q
      rw [List.flatMap_cons]
      cases b with
      | empty =>
          rw [show encodeBlockRec k .empty = [] from rfl, List.nil_append, hih]
          unfold optStoreG
          rw [List.filterMap_cons_none (entryMap_none (decG w) (k, .empty) rfl)]
      | full =>
          rw [show encodeBlockRec k .full ++ s.flatMap (fun p => encodeBlockRec p.1 p.2)
              = k :: 0 :: s.flatMap (fun p => encodeBlockRec p.1 p.2) from rfl]
          rw [parse_full, hih]
          unfold optStoreG
          rw [List.filterMap_cons_some (entryMap_some (decG w) (k, .full) .full rfl)]
      | bitmap bits =>
          have hlen : (bits.map encodeBit).length = w := by
            rw [List.length_map]
            exact hq
          rw [show encodeBlockRec k (.bitmap bits) ++
                s.flatMap (fun p => encodeBlockRec p.1 p.2)
              = k :: 1 :: (bits.map encodeBit ++
                s.flatMap (fun p => encodeBlockRec p.1 p.2)) from rfl]
          rw [parse_bitmap w k _ _ hlen, map_decodeBit_encodeBit, hih]
          unfold optStoreG
          rw [List.filterMap_cons_some
            (entryMap_some (decG w) (k, .bitmap bits) (canonBits bits) rfl)]
      | runlist ts =>
          rw [show encodeBlockRec k (.runlist ts) ++
                s.flatMap (fun p => encodeBlockRec p.1 p.2)
              = k :: 2 :: ts.length :: (ts ++
                s.flatMap (fun p => encodeBlockRec p.1 p.2)) from rfl]
          rw [parse_run, hih]
          unfold optStoreG
          rw [List.filterMap_cons_some
            (entryMap_some (decG w) (k, .runlist ts) (canonRun w ts) rfl)]

/- ### Content lemmas for decoding -/

theorem canonRun_get (w : Nat) (ts : List Nat) (j : Nat) (hj : j < w) :
    (canonRun w ts).get j = runVal ts j := by
  unfold canonRun
  by_cases h0 : ((List.range w).map (runVal ts)).all (fun x => x = false)
  · rw [if_pos h0]
    have h := all_getD_false _ j h0
    rw [getD_range_map w j _ hj] at h
    exact h.symm
  · rw [if_neg h0]
    by_cases h1 : ((List.range w).map (runVal ts)).all (fun x => x = true)
    · rw [if_pos h1]
      have h := all_getD_true _ j (by simpa using hj) h1
      rw [getD_range_map w j _ hj] at h
      exact h.symm
    · rw [if_neg h1]
      rfl

theorem canonRun_wf (w : Nat) (ts : List Nat) : (canonRun w ts).wf w := by
  unfold canonRun
  by_cases h0 : ((List.range w).map (runVal ts)).all (fun x => x = false)
  · rw [if_pos h0]; trivial
  · rw [if_neg h0]
    by_cases h1 : ((List.range w).map (runVal ts)).all (fun x => x = true)
    · rw [if_pos h1]; trivial
    · rw [if_neg h1]; trivial

theorem decG_get (w : Nat) (b : Block) (j : Nat) (hb : b.wf w) (hj : j < w) :
    (match decG w b with
      | some b' => b'
      | none => Block.empty).get j = b.get j := by
  cases b with
  | empty => rfl
  | full => rfl
  | bitmap bits => exact canonBits_get bits j (by rw [hb]; exact hj)
  | runlist ts => exact canonRun_get w ts j hj

theorem decG_wf (w : Nat) (b b' : Block) (hb : b.wf w) (h : decG w b = some b') :
    b'.wf w := by
  cases b with
  | empty => exact Option.noConfusion h
  | full =>
      injection h with h2
      rw [← h2]
      trivial
  | bitmap bits =>
      injection h with h2
      rw [← h2]
      exact canonBits_wf w bits hb
  | runlist ts =>
      injection h with h2
      rw [← h2]
      exact canonRun_wf w ts

theorem serBlockRep_empty (w L : Nat) : serBlockRep w L .empty = .empty := by
  unfold serBlockRep
  by_cases h : 3 ≤ L
  · rw [if_pos h, optimizeBlock_empty]
  · rw [if_neg h]

theorem serBlockRep_get (w L : Nat) (b : Block) (j : Nat) (hb : b.wf w) (hj : j < w) :
    (serBlockRep w L b).get j = b.get j := by
  unfold serBlockRep
  by_cases h : 3 ≤ L
  · rw [if_pos h]
    exact optimizeBlock_get w L b j hb hj
  · rw [if_neg h]

theorem serBlockRep_wf (w L : Nat) (b : Block) (hb : b.wf w) :
    (serBlockRep w L b).wf w := by
  unfold serBlockRep
  by_cases h : 3 ≤ L
  · rw [if_pos h]
    exact optimizeBlock_wf w L b hb
  · rw [if_neg h]
    exact hb

theorem keys_serStore (w L : Nat) (s : BlockStore) :
    BlockStore.keys (serStore w L s) = BlockStore.keys s := by
  unfold serStore BlockStore.keys
  rw [List.map_map]
  rfl

theorem serStore_wf (w L : Nat) (s : BlockStore) (hs : s.wf w) :
    (serStore w L s).wf w := by
  intro p hp
  rcases List.mem_map.1 hp with ⟨q, hq, hpq⟩
  rw [← hpq]
  exact serBlockRep_wf w L q.2 (hs q hq)

theorem find_serStore (w L : Nat) (s : BlockStore) (i : Nat) :
    (serStore w L s).find i = serBlockRep w L (s.find i) := by
  induction s with
  | nil =>
      show BlockStore.find ([] : BlockStore) i = serBlockRep w L (BlockStore.find [] i)
      rw [show BlockStore.find ([] : BlockStore) i = .empty from rfl, serBlockRep_empty]
  | cons q s ih =>
      show BlockStore.find ((q.1, serBlockRep w L q.2) :: serStore w L s) i = _
      rw [find_cons, find_cons q.1 q.2 s i]
      by_cases h : q.1 = i
      · rw [if_pos h, if_pos h]
      · rw [if_neg h, if_neg h]
        exact ih

/-- Content of the canonicalized decoded store equals the content of the
original store, at every block index and in-range offset. -/
theorem decoded_content (w L : Nat) (s : BlockStore) (hwf : s.wf w)
    (hnd : (BlockStore.keys s).Nodup) (k j : Nat) (hj : j < w) :
    (BlockStore.find (optStoreG (decG w) (serStore w L s)) k).get j =
      (BlockStore.find s k).get j := by
  have hnd2 : (BlockStore.keys (serStore w L s)).Nodup := by
    rw [keys_serStore]
    exact hnd
  rw [find_optStoreG (decG w) rfl _ hnd2 k, find_serStore]
  have hwfrep : (serBlockRep w L (s.find k)).wf w :=
    serBlockRep_wf w L _ (find_wf w s k hwf)
  rw [decG_get w _ j hwfrep hj]
  exact serBlockRep_get w L _ j (find_wf w s k hwf) hj

/- ### Fold characterizations of record application -/

theorem find_foldl_setBlock (recs : List (Nat × Block)) (st0 : BlockStore) (i : Nat)
    (hnd : (recs.map (fun r => r.1)).Nodup) :
    (recs.foldl (fun st r => st.setBlock r.1 r.2) st0).find i =
      if i ∈ recs.map (fun r => r.1) then BlockStore.find recs i else st0.find i := by
  induction recs generalizing st0 with
  | nil => simp
  | cons r recs ih =>
      obtain ⟨k, b⟩ := r
      rw [List.map_cons] at hnd
      have hnd' := (List.nodup_cons.1 hnd).2
      have hrnot := (List.nodup_cons.1 hnd).1
      rw [List.foldl_cons, ih _ hnd', List.map_cons]
      by_cases hmem : i ∈ recs.map (fun r => r.1)
      · have hir : ¬(k, b).1 = i := fun h => hrnot (h ▸ hmem)
        rw [if_pos hmem, if_pos (List.mem_cons.2 (Or.inr hmem)), find_cons,
          if_neg hir]
      · rw [if_neg hmem, find_setBlock]
        by_cases hi : i = (k, b).1
        · rw [if_pos hi, if_pos (List.mem_cons.2 (Or.inl hi)), find_cons,
            if_pos hi.symm]
        · rw [if_neg hi,
            if_neg (fun h => (List.mem_cons.1 h).elim hi hmem)]

theorem find_foldl_applyRecord (w : Nat) (op : BOp) (recs : List (Nat × Block))
    (st0 : BlockStore) (i : Nat) (hnd : (recs.map (fun r => r.1)).Nodup) :
    (recs.foldl (applyRecord w op) st0).find i =
      if i ∈ recs.map (fun r => r.1) then
        blockOp w op (st0.find i) (BlockStore.find recs i)
      else st0.find i := by
  induction recs generalizing st0 with
  | nil => simp
  | cons r recs ih =>
      obtain ⟨k, b⟩ := r
      rw [List.map_cons] at hnd
      have hnd' := (List.nodup_cons.1 hnd).2
      have hrnot := (List.nodup_cons.1 hnd).1
      rw [List.foldl_cons, ih _ hnd', List.map_cons]
      by_cases hmem : i ∈ recs.map (fun r => r.1)
      · have hir : ¬(k, b).1 = i := fun h => hrnot (h ▸ hmem)
        rw [if_pos hmem, if_pos (List.mem_cons.2 (Or.inr hmem)), find_cons,
          if_neg hir]
        unfold applyRecord
        rw [find_setBlock, if_neg (fun h => hir h.symm)]
      · rw [if_neg hmem]
        unfold applyRecord
        rw [find_setBlock]
        by_cases hi : i = (k, b).1
        · rw [if_pos hi, if_pos (List.mem_cons.2 (Or.inl hi)), find_cons,
            if_pos hi.symm, hi]
        · rw [if_neg hi,
            if_neg (fun h => (List.mem_cons.1 h).elim hi hmem)]

theorem find_filter_keys (s : BlockStore) (ks : List Nat) (i : Nat) :
    BlockStore.find (List.filter (fun p => decide (p.1 ∈ ks)) s) i =
      if i ∈ ks then BlockStore.find s i else .empty := by
  induction s with
  | nil =>
      rw [List.filter_nil]
      rw [show BlockStore.find ([] : BlockStore) i = .empty from rfl]
      by_cases h : i ∈ ks
      · rw [if_pos h]
      · rw [if_neg h]
  | cons q s ih =>
      obtain ⟨k, b⟩ := q
      by_cases hq : k ∈ ks
      · rw [List.filter_cons_of_pos (by simpa using hq), find_cons, find_cons]
        by_cases hqi : k = i
        · rw [if_pos hqi, if_pos (hqi ▸ hq), if_pos hqi]
        · rw [if_neg hqi, if_neg hqi, ih]
      · rw [List.filter_cons_of_neg (by simpa using hq), ih, find_cons]
        by_cases hik : i ∈ ks
        · have hqi : ¬k = i := fun h => hq (h ▸ hik)
          rw [if_pos hik, if_pos hik, if_neg hqi]
        · rw [if_neg hik, if_neg hik]

/- ### Master lemmas: round trip and streaming combine -/

theorem parse_serialize (w L : Nat) (v : BitVector) (hwf : v.wf w) :
    parseRecords w ((serStore w L v.store).flatMap (fun p => encodeBlockRec p.1 p.2)) =
      (optStoreG (decG w) (serStore w L v.store), none) :=
  parse_encodeStore w (serStore w L v.store) (serStore_wf w L v.store hwf)

theorem recs_nodup (w L : Nat) (v : BitVector)
    (hnd : (BlockStore.keys v.store).Nodup) :
    (BlockStore.keys (optStoreG (decG w) (serStore w L v.store))).Nodup :=
  optStoreG_nodup _ _ (by rw [keys_serStore]; exact hnd)

theorem recs_wf (w L : Nat) (v : BitVector) (hwf : v.wf w) :
    (optStoreG (decG w) (serStore w L v.store)).wf w :=
  optStoreG_wf w _ _ (serStore_wf w L v.store hwf)
    (fun b b' hb h => decG_wf w b b' hb h)

theorem foldl_setBlock_wf (w : Nat) :
    ∀ (recs : List (Nat × Block)) (st0 : BlockStore), st0.wf w →
      (∀ p ∈ recs, Block.wf w p.2) →
      (recs.foldl (fun st r => st.setBlock r.1 r.2) st0).wf w := by
  intro recs
  induction recs with
  | nil => intro st0 h0 _; exact h0
  | cons r recs ih =>
      intro st0 h0 hr
      rw [List.foldl_cons]
      exact ih _ (setBlock_wf w st0 r.1 r.2 h0 (hr r (List.mem_cons_self r recs)))
        (fun p hp => hr p (List.mem_cons_of_mem r hp))

/-- Decoding a serialized vector succeeds and reproduces the vector's
declared size and logical content at every position, for every compression
level. -/
theorem decode_serialize (w L : Nat) (v : BitVector) (hw : 0 < w)
    (hwf : v.wf w) (hnd : (BlockStore.keys v.store).Nodup) :
    ∃ st, decodeVec w (serialize w v L) = .ok ⟨v.size, st⟩ ∧
      (∀ i, BitVector.get w ⟨v.size, st⟩ i = v.get w i) ∧
      BitVector.wf w ⟨v.size, st⟩ := by
  have hparse := parse_serialize w L v hwf
  have hdec : decodeVec w (serialize w v L) =
      .ok ⟨v.size, (optStoreG (decG w) (serStore w L v.store)).foldl
        (fun st r => st.setBlock r.1 r.2) ([] : BlockStore)⟩ := by
    simp only [serialize, decodeVec]
    rw [hparse]
    simp
  refine ⟨_, hdec, ?_, ?_⟩
  case refine_2 =>
    exact foldl_setBlock_wf w _ ([] : BlockStore)
      (fun p hp => absurd hp (List.not_mem_nil p)) (recs_wf w L v hwf)
  intro i
  have hndr := recs_nodup w L v hnd
  unfold BitVector.get
  simp only
  rw [find_foldl_setBlock _ ([] : BlockStore) (i / w) hndr]
  have hdc := decoded_content w L v.store hwf hnd (i / w) (i % w) (Nat.mod_lt i hw)
  by_cases hmem : i / w ∈ (optStoreG (decG w) (serStore w L v.store)).map
      (fun r => r.1)
  · rw [if_pos hmem]
    exact hdc
  · rw [if_neg hmem]
    rw [find_eq_empty_of_not_mem_keys _ (i / w) hmem] at hdc
    rw [show BlockStore.find ([] : BlockStore) (i / w) = .empty from rfl]
    exact hdc

theorem opBool_false_right (op : BOp) (x : Bool) (h : op ≠ BOp.and) :
    opBool op x false = x := by
  cases op with
  | and => exact absurd rfl h
  | or => simp [opBool]
  | sub => simp [opBool]
  | xor => simp [opBool]

/-- The streaming deserializer-with-operation over a serialized source
succeeds and computes, at every position, the pointwise boolean combination
of destination and source — with the destination's size growing to the
maximum of the two declared sizes. -/
theorem deserializeOp_serialize (w L : Nat) (op : BOp) (D S : BitVector)
    (hw : 0 < w) (hD : D.wf w) (hS : S.wf w)
    (hndS : (BlockStore.keys S.store).Nodup) :
    (deserializeOp w op D (serialize w S L)).2 = none ∧
    (deserializeOp w op D (serialize w S L)).1.size = max D.size S.size ∧
    ∀ i, (deserializeOp w op D (serialize w S L)).1.get w i
        = opBool op (D.get w i) (S.get w i) := by
  have hparse := parse_serialize w L S hS
  have hndr := recs_nodup w L S hndS
  have hwfr := recs_wf w L S hS
  have hred : deserializeOp w op D (serialize w S L) =
      (⟨max D.size S.size,
        if op = BOp.and then
          ((optStoreG (decG w) (serStore w L S.store)).foldl
              (applyRecord w op) D.store).filter
            (fun p => decide (p.1 ∈ (optStoreG (decG w) (serStore w L S.store)).map
              (fun r => r.1)))
        else (optStoreG (decG w) (serStore w L S.store)).foldl
          (applyRecord w op) D.store⟩, none) := by
    simp only [serialize, deserializeOp]
    rw [hparse]
    simp
  rw [hred]
  refine ⟨rfl, rfl, ?_⟩
  intro i
  have hdc := decoded_content w L S.store hS hndS (i / w) (i % w) (Nat.mod_lt i hw)
  unfold BitVector.get
  simp only
  by_cases hop : op = BOp.and
  · rw [if_pos hop]
    rw [find_filter_keys]
    by_cases hmem : i / w ∈ (optStoreG (decG w) (serStore w L S.store)).map
        (fun r => r.1)
    · rw [if_pos hmem, find_foldl_applyRecord w op _ D.store (i / w) hndr,
        if_pos hmem]
      rw [blockOp_get w op _ _ (i % w) (find_wf w D.store (i / w) hD)
        (find_wf w _ (i / w) hwfr) (Nat.mod_lt i hw)]
      rw [hdc]
    · rw [if_neg hmem]
      rw [find_eq_empty_of_not_mem_keys _ (i / w) hmem] at hdc
      rw [← hdc, hop]
      simp [opBool, Block.get]
  · rw [if_neg hop]
    rw [find_foldl_applyRecord w op _ D.store (i / w) hndr]
    by_cases hmem : i / w ∈ (optStoreG (decG w) (serStore w L S.store)).map
        (fun r => r.1)
    · rw [if_pos hmem]
      rw [blockOp_get w op _ _ (i % w) (find_wf w D.store (i / w) hD)
        (find_wf w _ (i / w) hwfr) (Nat.mod_lt i hw)]
      rw [hdc]
    · rw [if_neg hmem]
      rw [find_eq_empty_of_not_mem_keys _ (i / w) hmem] at hdc
      rw [← hdc]
      rw [show Block.get .empty (i % w) = false from rfl,
        opBool_false_right op _ hop]

/- ### keyedStore lemmas -/

theorem keyedStoreF_eq (f : Nat → Block) (k : Nat) (p : Nat × Block)
    (h : (match f k with
          | Block.empty => none
          | b => some (k, b)) = some p) :
    p.1 = k ∧ p.2 = f k := by
  cases hb : f k <;> rw [hb] at h
  · exact Option.noConfusion h
  · injection h with h'
    subst h'
    exact ⟨rfl, rfl⟩
  · injection h with h'
    subst h'
    exact ⟨rfl, rfl⟩
  · injection h with h'
    subst h'
    exact ⟨rfl, rfl⟩

theorem find_keyedStore (ks : List Nat) (f : Nat → Block) (hnd : ks.Nodup) (i : Nat) :
    (keyedStore ks f).find i = if i ∈ ks then f i else .empty := by
  have hfind : List.find? (fun p => p.1 == i) (keyedStore ks f) =
      if i ∈ ks then
        (match f i with
          | Block.empty => none
          | b => some (i, b))
      else none :=
    find?_filterMap_keyed _ _ (fun k p h => (keyedStoreF_eq f k p h).1) hnd i
  show (match List.find? (fun p => p.1 == i) (keyedStore ks f) with
        | some p => p.2
        | none => Block.empty) = _
  rw [hfind]
  by_cases hmem : i ∈ ks
  · rw [if_pos hmem, if_pos hmem]
    cases hb : f i <;> simp
  · rw [if_neg hmem, if_neg hmem]

theorem keyedStore_keys_sublist (ks : List Nat) (f : Nat → Block) :
    (BlockStore.keys (keyedStore ks f)).Sublist ks := by
  induction ks with
  | nil => exact List.Sublist.refl _
  | cons k ks ih =>
      unfold keyedStore
      rw [List.filterMap_cons]
      cases hb : f k
      · exact List.Sublist.trans ih (List.sublist_cons_self _ _)
      · exact List.Sublist.cons₂ _ ih
      · exact List.Sublist.cons₂ _ ih
      · exact List.Sublist.cons₂ _ ih

theorem keyedStore_nodup (ks : List Nat) (f : Nat → Block) (hnd : ks.Nodup) :
    (BlockStore.keys (keyedStore ks f)).Nodup :=
  (keyedStore_keys_sublist ks f).nodup hnd

theorem keyedStore_wf (w : Nat) (ks : List Nat) (f : Nat → Block)
    (hf : ∀ i, (f i).wf w) : (keyedStore ks f).wf w := by
  intro p hp
  rcases List.mem_filterMap.1 hp with ⟨k, _, hFk⟩
  rw [(keyedStoreF_eq f k p hFk).2]
  exact hf k

/- ### Per-position semantics of the aggregator -/

theorem foldl_blockOp_wf (w : Nat) (op : BOp) (k : Nat) :
    ∀ (srcs : List BitVector), (∀ s ∈ srcs, BitVector.wf w s) →
    ∀ init : Block, init.wf w →
      (srcs.foldl (fun acc s => blockOp w op acc (s.store.find k)) init).wf w := by
  intro srcs
  induction srcs with
  | nil => intro _ init hinit; exact hinit
  | cons s srcs ih =>
      intro hsrcs init hinit
      rw [List.foldl_cons]
      exact ih (fun t ht => hsrcs t (List.mem_cons_of_mem s ht)) _
        (blockOp_wf w op init _ hinit
          (find_wf w s.store k (hsrcs s (List.mem_cons_self s srcs))))

theorem foldl_blockOp_get (w : Nat) (op : BOp) (k j : Nat) (hj : j < w) :
    ∀ (srcs : List BitVector), (∀ s ∈ srcs, BitVector.wf w s) →
    ∀ init : Block, init.wf w →
      (srcs.foldl (fun acc s => blockOp w op acc (s.store.find k)) init).get j =
        srcs.foldl (fun b s => opBool op b ((s.store.find k).get j)) (init.get j) := by
  intro srcs
  induction srcs with
  | nil => intro _ init hinit; rfl
  | cons s srcs ih =>
      intro hsrcs init hinit
      have hswf := find_wf w s.store k (hsrcs s (List.mem_cons_self s srcs))
      rw [List.foldl_cons, List.foldl_cons,
        ih (fun t ht => hsrcs t (List.mem_cons_of_mem s ht)) _
          (blockOp_wf w op init _ hinit hswf),
        blockOp_get w op init _ j hinit hswf hj]

theorem foldl_bvOp_get (w : Nat) (op : BOp) (i : Nat) (hw : 0 < w) :
    ∀ (srcs : List BitVector), (∀ s ∈ srcs, BitVector.wf w s) →
    ∀ v : BitVector, v.wf w →
      (srcs.foldl (fun acc s => bvOp w op acc s) v).get w i =
        srcs.foldl (fun b s => opBool op b (s.get w i)) (v.get w i) := by
  intro srcs
  induction srcs with
  | nil => intro _ v hv; rfl
  | cons s srcs ih =>
      intro hsrcs v hv
      have hswf := hsrcs s (List.mem_cons_self s srcs)
      rw [List.foldl_cons, List.foldl_cons,
        ih (fun t ht => hsrcs t (List.mem_cons_of_mem s ht)) _
          (bvOp_wf w op v s hv hswf),
        bvOp_get w op v s i hw hv hswf]

theorem foldl_or_eq (l : List Bool) : ∀ b : Bool,
    l.foldl (fun x y => x || y) b = (b || l.any id) := by
  induction l with
  | nil => intro b; simp
  | cons a l ih =>
      intro b
      rw [List.foldl_cons, ih (b || a)]
      simp [Bool.or_assoc]

theorem foldl_and_eq (l : List Bool) : ∀ b : Bool,
    l.foldl (fun x y => x && y) b = (b && l.all id) := by
  induction l with
  | nil => intro b; simp
  | cons a l ih =>
      intro b
      rw [List.foldl_cons, ih (b && a)]
      simp [Bool.and_assoc]

theorem any_id_perm (l l' : List Bool) (h : l.Perm l') : l.any id = l'.any id := by
  cases hb : l'.any id with
  | true =>
      rw [List.any_eq_true] at hb ⊢
      rcases hb with ⟨x, hx, hxx⟩
      exact ⟨x, h.mem_iff.2 hx, hxx⟩
  | false =>
      rw [List.any_eq_false] at hb ⊢
      intro x hx
      exact hb x (h.mem_iff.1 hx)

theorem all_id_perm (l l' : List Bool) (h : l.Perm l') : l.all id = l'.all id := by
  cases hb : l'.all id with
  | true =>
      rw [List.all_eq_true] at hb ⊢
      intro x hx
      exact hb x (h.mem_iff.1 hx)
  | false =>
      rw [List.all_eq_false] at hb ⊢
      rcases hb with ⟨x, hx, hxx⟩
      exact ⟨x, h.mem_iff.2 hx, hxx⟩

theorem foldl_or_from_false {α : Type} (g : α → Bool) :
    ∀ l : List α, (∀ a ∈ l, g a = false) →
      l.foldl (fun x a => x || g a) false = false := by
  intro l
  induction l with
  | nil => intro _; rfl
  | cons a l ih =>
      intro h
      rw [List.foldl_cons, h a (List.mem_cons_self a l)]
      exact ih (fun t ht => h t (List.mem_cons_of_mem a ht))

theorem foldl_and_from_false {α : Type} (g : α → Bool) :
    ∀ l : List α, l.foldl (fun x a => x && g a) false = false := by
  intro l
  induction l with
  | nil => rfl
  | cons a l ih =>
      rw [List.foldl_cons]
      exact ih

theorem not_mem_aggKeys_find (srcs : List BitVector) (i : Nat)
    (h : i ∉ aggKeys srcs) (s : BitVector) (hs : s ∈ srcs) :
    BlockStore.find s.store i = .empty := by
  apply find_eq_empty_of_not_mem_keys
  intro hmem
  exact h (List.mem_dedup.2 (List.mem_flatMap.2 ⟨s, hs, hmem⟩))

/-- The union target of the aggregator, per position: the OR-fold of all
sources' bits at that position. -/
theorem agg_or_get (w : Nat) (srcs : List BitVector) (opt : Bool) (i : Nat)
    (hw : 0 < w) (hsrcs : ∀ s ∈ srcs, BitVector.wf w s) :
    (Aggregator.combine_or w ⟨srcs, opt⟩).get w i =
      (srcs.map (fun s => s.get w i)).foldl (fun x y => x || y) false := by
  have hndk : (aggKeys srcs).Nodup := List.nodup_dedup _
  have hfwf : ∀ k, ((fun k => srcs.foldl
      (fun acc s => blockOp w .or acc (s.store.find k)) .empty) k).wf w :=
    fun k => foldl_blockOp_wf w .or k srcs hsrcs .empty trivial
  have hbase : (BitVector.get w ⟨srcs.foldl (fun n s => max n s.size) 0,
      keyedStore (aggKeys srcs)
        (fun k => srcs.foldl (fun acc s => blockOp w .or acc (s.store.find k)) .empty)⟩ i) =
      (srcs.map (fun s => s.get w i)).foldl (fun x y => x || y) false := by
    unfold BitVector.get
    simp only
    rw [find_keyedStore _ _ hndk]
    rw [List.foldl_map]
    by_cases hmem : i / w ∈ aggKeys srcs
    · rw [if_pos hmem,
        foldl_blockOp_get w .or (i / w) (i % w) (Nat.mod_lt i hw) srcs hsrcs .empty trivial]
      show srcs.foldl (fun b s => opBool .or b ((s.store.find (i / w)).get (i % w))) false
          = srcs.foldl (fun x s => x || s.get w i) false
      rfl
    · rw [if_neg hmem]
      have hall : ∀ s ∈ srcs, (BlockStore.find s.store (i / w)).get (i % w) = false := by
        intro s hs
        rw [not_mem_aggKeys_find srcs (i / w) hmem s hs]
        rfl
      exact (foldl_or_from_false
        (fun s => (BlockStore.find s.store (i / w)).get (i % w)) srcs hall).symm
  unfold Aggregator.combine_or
  simp only
  by_cases hopt : opt = true
  · rw [if_pos hopt]
    rw [optimize_get w aggOptLevel _ i hw (keyedStore_wf w _ _ hfwf)
      (keyedStore_nodup _ _ hndk)]
    exact hbase
  · rw [if_neg hopt]
    exact hbase

/-- The intersection target of the aggregator, per position: the AND-fold of
the remaining sources' bits onto the first source's bit. -/
theorem agg_and_get (w : Nat) (s0 : BitVector) (rest : List BitVector)
    (opt : Bool) (i : Nat) (hw : 0 < w) (hs0 : BitVector.wf w s0)
    (hrest : ∀ s ∈ rest, BitVector.wf w s) :
    (Aggregator.combine_and w ⟨s0 :: rest, opt⟩).get w i =
      (rest.map (fun s => s.get w i)).foldl (fun x y => x && y) (s0.get w i) := by
  have hndk : (aggKeys (s0 :: rest)).Nodup := List.nodup_dedup _
  have hfwf : ∀ k, ((fun k => rest.foldl
      (fun acc s => blockOp w .and acc (s.store.find k)) (s0.store.find k)) k).wf w :=
    fun k => foldl_blockOp_wf w .and k rest hrest _ (find_wf w s0.store k hs0)
  have hbase : (BitVector.get w ⟨(s0 :: rest).foldl (fun n s => max n s.size) 0,
      keyedStore (aggKeys (s0 :: rest))
        (fun k => rest.foldl (fun acc s => blockOp w .and acc (s.store.find k))
          (s0.store.find k))⟩ i) =
      (rest.map (fun s => s.get w i)).foldl (fun x y => x && y) (s0.get w i) := by
    unfold BitVector.get
    simp only
    rw [find_keyedStore _ _ hndk]
    rw [List.foldl_map]
    by_cases hmem : i / w ∈ aggKeys (s0 :: rest)
    · rw [if_pos hmem,
        foldl_blockOp_get w .and (i / w) (i % w) (Nat.mod_lt i hw) rest hrest _
          (find_wf w s0.store (i / w) hs0)]
      rfl
    · rw [if_neg hmem]
      have hz : (BlockStore.find s0.store (i / w)).get (i % w) = false := by
        rw [not_mem_aggKeys_find (s0 :: rest) (i / w) hmem s0
          (List.mem_cons_self s0 rest)]
        rfl
      rw [hz]
      exact (foldl_and_from_false
        (fun s => (BlockStore.find s.store (i / w)).get (i % w)) rest).symm
  unfold Aggregator.combine_and
  simp only
  by_cases hopt : opt = true
  · rw [if_pos hopt]
    rw [optimize_get w aggOptLevel _ i hw (keyedStore_wf w _ _ hfwf)
      (keyedStore_nodup _ _ hndk)]
    exact hbase
  · rw [if_neg hopt]
    exact hbase

theorem foldl_bvOp_or_any (w : Nat) (i : Nat) (hw : 0 < w) :
    ∀ (rest : List BitVector), (∀ s ∈ rest, BitVector.wf w s) →
    ∀ v, BitVector.wf w v →
      (rest.foldl (fun acc s => bvOp w .or acc s) v).get w i
        = (v.get w i || (rest.map (fun s => s.get w i)).any id) := by
  intro rest
  induction rest with
  | nil => intro _ v _; simp
  | cons s rest ih =>
      intro hr v hv
      have hs := hr s (List.mem_cons_self s rest)
      rw [List.foldl_cons,
        ih (fun t ht => hr t (List.mem_cons_of_mem s ht)) _ (bvOp_wf w .or v s hv hs),
        bvOp_get w .or v s i hw hv hs, List.map_cons, List.any_cons]
      simp [opBool, Bool.or_assoc]

theorem foldl_bvOp_and_all (w : Nat) (i : Nat) (hw : 0 < w) :
    ∀ (rest : List BitVector), (∀ s ∈ rest, BitVector.wf w s) →
    ∀ v, BitVector.wf w v →
      (rest.foldl (fun acc s => bvOp w .and acc s) v).get w i
        = (v.get w i && (rest.map (fun s => s.get w i)).all id) := by
  intro rest
  induction rest with
  | nil => intro _ v _; simp
  | cons s rest ih =>
      intro hr v hv
      have hs := hr s (List.mem_cons_self s rest)
      rw [List.foldl_cons,
        ih (fun t ht => hr t (List.mem_cons_of_mem s ht)) _ (bvOp_wf w .and v s hv hs),
        bvOp_get w .and v s i hw hv hs, List.map_cons, List.all_cons]
      simp [opBool, Bool.and_assoc]

/- ### The claims -/

/-- C1: for every destination vector D, source vector S and operation code
in {OR, AND, SUB, XOR}, `deserialize(D, serialize(S), op)` succeeds and
mutates D into a vector equal, at every position, to fully decoding the
buffer into a vector V and then applying `D.op(V)` — which coincides with
`D.op(S)` (decode-then-combine). -/
theorem deserialize_with_op_equiv (w L : Nat) (op : BOp) (D S : BitVector)
    (hw : 0 < w) (hD : BitVector.wf w D) (hS : BitVector.wf w S)
    (hndS : (BlockStore.keys S.store).Nodup) :
    (deserializeOp w op D (serialize w S L)).2 = none ∧
    ∃ V, decodeVec w (serialize w S L) = .ok V ∧
      ∀ i, ((deserializeOp w op D (serialize w S L)).1.get w i
            = (bvOp w op D V).get w i ∧
          (deserializeOp w op D (serialize w S L)).1.get w i
            = (bvOp w op D S).get w i) := by
  obtain ⟨herr, hsize, hget⟩ := deserializeOp_serialize w L op D S hw hD hS hndS
  obtain ⟨st, hdec, hgetV, hwfV⟩ := decode_serialize w L S hw hS hndS
  refine ⟨herr, _, hdec, ?_⟩
  intro i
  constructor
  · rw [hget i, bvOp_get w op D _ i hw hD hwfV, hgetV i]
  · rw [hget i, bvOp_get w op D S i hw hD hS]

/-- C2: serializing a vector at any compression level and decoding the
buffer with no operation applied reproduces a vector whose `get` equals the
original's at every position up to `size()`; the decoded logical content is
independent of the compression level. -/
theorem serialize_round_trip (w L : Nat) (V : BitVector) (hw : 0 < w)
    (hV : BitVector.wf w V) (hnd : (BlockStore.keys V.store).Nodup) :
    ∃ V', decodeVec w (serialize w V L) = .ok V' ∧
      (∀ i, i < V.size → V'.get w i = V.get w i) ∧
      (∀ L' V'', decodeVec w (serialize w V L') = .ok V'' →
        ∀ i, V''.get w i = V'.get w i) := by
  obtain ⟨st, hdec, hget, _⟩ := decode_serialize w L V hw hV hnd
  refine ⟨_, hdec, fun i _ => hget i, ?_⟩
  intro L' V'' hdec'
  obtain ⟨st', hdec2, hget2, _⟩ := decode_serialize w L' V hw hV hnd
  rw [hdec'] at hdec2
  injection hdec2 with h2
  intro i
  rw [h2, hget2 i, ← hget i]

/-- C3: for vectors with different declared logical sizes, every one of the
four operators (`bit_or`, `bit_and`, `bit_sub`, `bit_xor`) grows the
result's size to the maximum of the two operand sizes — including AND. -/
theorem size_growth_rule (w : Nat) (A B : BitVector) (h : A.size ≠ B.size) :
    (BitVector.bit_or w A B).size = max A.size B.size ∧
    (BitVector.bit_and w A B).size = max A.size B.size ∧
    (BitVector.bit_sub w A B).size = max A.size B.size ∧
    (BitVector.bit_xor w A B).size = max A.size B.size :=
  ⟨rfl, rfl, rfl, rfl⟩

/-- C4: for A = {1,2,3} and B = {1,2,4}, `A.bit_or(B)` is exactly the set
{1,2,3,4} and `A.bit_and(B)` (from the same starting A) is exactly {1,2}. -/
theorem scenario_or_and (w : Nat) (hw : 0 < w) :
    (∀ i, (BitVector.bit_or w (BitVector.ofList w [1, 2, 3])
        (BitVector.ofList w [1, 2, 4])).get w i
      = decide (i ∈ ([1, 2, 3, 4] : List Nat))) ∧
    (∀ i, (BitVector.bit_and w (BitVector.ofList w [1, 2, 3])
        (BitVector.ofList w [1, 2, 4])).get w i
      = decide (i ∈ ([1, 2] : List Nat))) := by
  constructor
  · intro i
    show (bvOp w .or (BitVector.ofList w [1, 2, 3]) (BitVector.ofList w [1, 2, 4])).get w i = _
    rw [bvOp_get w .or _ _ i hw (ofList_wf w _ hw) (ofList_wf w _ hw),
      ofList_get w _ i hw, ofList_get w _ i hw]
    show (decide (i ∈ ([1, 2, 3] : List Nat)) || decide (i ∈ ([1, 2, 4] : List Nat)))
        = decide (i ∈ ([1, 2, 3, 4] : List Nat))
    by_cases h1 : i = 1 <;> by_cases h2 : i = 2 <;> by_cases h3 : i = 3 <;>
      by_cases h4 : i = 4 <;> simp [h1, h2, h3, h4]
  · intro i
    show (bvOp w .and (BitVector.ofList w [1, 2, 3]) (BitVector.ofList w [1, 2, 4])).get w i = _
    rw [bvOp_get w .and _ _ i hw (ofList_wf w _ hw) (ofList_wf w _ hw),
      ofList_get w _ i hw, ofList_get w _ i hw]
    show (decide (i ∈ ([1, 2, 3] : List Nat)) && decide (i ∈ ([1, 2, 4] : List Nat)))
        = decide (i ∈ ([1, 2] : List Nat))
    by_cases h1 : i = 1 <;> by_cases h2 : i = 2 <;> by_cases h3 : i = 3 <;>
      by_cases h4 : i = 4 <;> simp [h1, h2, h3, h4]

/-- C6: the table-driven `combine_operation` entry point produces exactly
the same result as the correspondingly named method, for each of the four
operation codes. -/
theorem combine_operation_eq_named (w : Nat) (A B : BitVector) :
    BitVector.combine_operation w A B .BM_OR = BitVector.bit_or w A B ∧
    BitVector.combine_operation w A B .BM_AND = BitVector.bit_and w A B ∧
    BitVector.combine_operation w A B .BM_SUB = BitVector.bit_sub w A B ∧
    BitVector.combine_operation w A B .BM_XOR = BitVector.bit_xor w A B :=
  ⟨rfl, rfl, rfl, rfl⟩

/-- C7: `combine_or`/`combine_and` over a raw integer array mutate the
vector exactly as if the array had first been converted to a vector of its
positions and then `bit_or`/`bit_and` applied; duplicate positions in the
array have no additional effect. -/
theorem combine_with_array_eq (w : Nat) (v : BitVector) (arr : List Nat)
    (hw : 0 < w) (hv : BitVector.wf w v) :
    (∀ i, (combine_or_arr w v arr).get w i
        = (bvOp w .or v (BitVector.ofList w arr)).get w i) ∧
    (∀ i, (combine_and_arr w v arr).get w i
        = (bvOp w .and v (BitVector.ofList w arr)).get w i) ∧
    (∀ i, (combine_or_arr w v arr).get w i = (combine_or_arr w v arr.dedup).get w i) ∧
    (∀ i, (combine_and_arr w v arr).get w i = (combine_and_arr w v arr.dedup).get w i) := by
  have hor : ∀ (l : List Nat) (i : Nat), (combine_or_arr w v l).get w i
      = (v.get w i || decide (i ∈ l)) :=
    fun l i => foldl_setBit_get w l v i hw hv
  have hand : ∀ (l : List Nat) (i : Nat), (combine_and_arr w v l).get w i
      = decide (i ∈ l.filter (fun p => v.get w p)) := by
    intro l i
    show (BitVector.ofList w (l.filter (fun p => v.get w p))).get w i = _
    exact ofList_get w _ i hw
  refine ⟨?_, ?_, ?_, ?_⟩
  · intro i
    rw [hor, bvOp_get w .or v _ i hw hv (ofList_wf w arr hw), ofList_get w arr i hw]
    rfl
  · intro i
    rw [hand, bvOp_get w .and v _ i hw hv (ofList_wf w arr hw), ofList_get w arr i hw]
    by_cases hvi : v.get w i <;> by_cases ha : i ∈ arr <;>
      simp [List.mem_filter, hvi, ha, opBool]
  · intro i
    rw [hor, hor]
    simp [List.mem_dedup]
  · intro i
    rw [hand, hand]
    simp [List.mem_filter, List.mem_dedup]

/-- C8: `optimize` leaves the vector's logical content unchanged at every
position, for every effort level; only block representations may change. -/
theorem optimize_preserves_content (w L : Nat) (V : BitVector) (hw : 0 < w)
    (hV : BitVector.wf w V) (hnd : (BlockStore.keys V.store).Nodup) :
    ∀ i, (V.optimize w L).get w i = V.get w i :=
  fun i => optimize_get w L V i hw hV hnd

/-- C10: `set(array, SORTED)` on a vector that already contains set bits
adds the strictly ascending array positions to the existing content — a
union, not a replacement. -/
theorem set_sorted_is_union (w : Nat) (A : BitVector) (P : List Nat)
    (hw : 0 < w) (hA : BitVector.wf w A) (hsort : List.Sorted (· < ·) P) :
    ∀ i, (BitVector.setArray w A P .BM_SORTED).get w i
      = (A.get w i || decide (i ∈ P)) := by
  intro i
  show (P.foldl (fun acc p => BitVector.setBit w acc p) A).get w i = _
  exact foldl_setBit_get w P A i hw hA

/-- C5: for every non-empty source list, the aggregator's `combine_or`
(resp. `combine_and`) target equals, at every position, the left-fold of
pairwise `bit_or` (resp. `bit_and`) over the same operands; the result is
the same for any order of the operands; and OR over zero registered sources
yields an empty vector. -/
theorem aggregator_fold_equiv (w : Nat) (opt : Bool) (s0 : BitVector)
    (rest : List BitVector) (hw : 0 < w) (hs0 : BitVector.wf w s0)
    (hrest : ∀ s ∈ rest, BitVector.wf w s) :
    (∀ i, (Aggregator.combine_or w ⟨s0 :: rest, opt⟩).get w i
        = (rest.foldl (fun acc s => BitVector.bit_or w acc s) s0).get w i) ∧
    (∀ i, (Aggregator.combine_and w ⟨s0 :: rest, opt⟩).get w i
        = (rest.foldl (fun acc s => BitVector.bit_and w acc s) s0).get w i) ∧
    (∀ srcs', (s0 :: rest).Perm srcs' → (∀ s ∈ srcs', BitVector.wf w s) → ∀ i,
        (Aggregator.combine_or w ⟨srcs', opt⟩).get w i
          = (Aggregator.combine_or w ⟨s0 :: rest, opt⟩).get w i ∧
        (Aggregator.combine_and w ⟨srcs', opt⟩).get w i
          = (Aggregator.combine_and w ⟨s0 :: rest, opt⟩).get w i) ∧
    (∀ i, (Aggregator.combine_or w ⟨[], opt⟩).get w i = false) := by
  have hcons : ∀ s ∈ s0 :: rest, BitVector.wf w s := by
    intro s hs
    rcases List.mem_cons.1 hs with h | h
    · rw [h]; exact hs0
    · exact hrest s h
  have hORany : ∀ (srcs : List BitVector), (∀ s ∈ srcs, BitVector.wf w s) → ∀ i,
      (Aggregator.combine_or w ⟨srcs, opt⟩).get w i
        = (srcs.map (fun s => s.get w i)).any id := by
    intro srcs hs i
    rw [agg_or_get w srcs opt i hw hs, foldl_or_eq]
    simp
  have hANDall : ∀ (t0 : BitVector) (trest : List BitVector),
      BitVector.wf w t0 → (∀ s ∈ trest, BitVector.wf w s) → ∀ i,
      (Aggregator.combine_and w ⟨t0 :: trest, opt⟩).get w i
        = ((t0 :: trest).map (fun s => s.get w i)).all id := by
    intro t0 trest h0 hr i
    rw [agg_and_get w t0 trest opt i hw h0 hr, foldl_and_eq, List.map_cons,
      List.all_cons]
    rfl
  refine ⟨?_, ?_, ?_, ?_⟩
  · intro i
    have hrw : (rest.foldl (fun acc s => BitVector.bit_or w acc s) s0)
        = (rest.foldl (fun acc s => bvOp w .or acc s) s0) := rfl
    rw [hORany (s0 :: rest) hcons i, hrw,
      foldl_bvOp_or_any w i hw rest hrest s0 hs0, List.map_cons, List.any_cons]
    rfl
  · intro i
    have hrw : (rest.foldl (fun acc s => BitVector.bit_and w acc s) s0)
        = (rest.foldl (fun acc s => bvOp w .and acc s) s0) := rfl
    rw [hANDall s0 rest hs0 hrest i, hrw,
      foldl_bvOp_and_all w i hw rest hrest s0 hs0, List.map_cons, List.all_cons]
    rfl
  · intro srcs' hperm hsrcs' i
    cases srcs' with
    | nil =>
        have := hperm.length_eq
        simp at this
    | cons t0 trest =>
        have ht0 : BitVector.wf w t0 := hsrcs' t0 (List.mem_cons_self t0 trest)
        have htrest : ∀ s ∈ trest, BitVector.wf w s :=
          fun s hs => hsrcs' s (List.mem_cons_of_mem t0 hs)
        constructor
        · rw [hORany (t0 :: trest) hsrcs' i, hORany (s0 :: rest) hcons i]
          exact any_id_perm _ _ ((hperm.symm).map (fun s => s.get w i))
        · rw [hANDall t0 trest ht0 htrest i, hANDall s0 rest hs0 hrest i]
          exact all_id_perm _ _ ((hperm.symm).map (fun s => s.get w i))
  · intro i
    rw [hORany [] (fun s hs => absurd hs (List.not_mem_nil s)) i]
    rfl

/- ### Concrete witnesses -/

theorem deserialize_with_op_equiv_witness :
    (0 : Nat) < 8 ∧
    (deserializeOp 8 .or (BitVector.ofList 8 [1, 2, 3])
        (serialize 8 (BitVector.ofList 8 [1, 2, 4]) 4)).2 = none :=
  ⟨by decide, (deserialize_with_op_equiv 8 4 .or (BitVector.ofList 8 [1, 2, 3])
    (BitVector.ofList 8 [1, 2, 4]) (by decide) (by decide) (by decide) (by decide)).1⟩

theorem serialize_round_trip_witness :
    (0 : Nat) < 8 ∧
    ∃ V', decodeVec 8 (serialize 8 (BitVector.ofList 8 [1, 2, 4]) 4) = .ok V' ∧
      (∀ i, i < (BitVector.ofList 8 [1, 2, 4]).size →
        V'.get 8 i = (BitVector.ofList 8 [1, 2, 4]).get 8 i) ∧
      (∀ L' V'', decodeVec 8 (serialize 8 (BitVector.ofList 8 [1, 2, 4]) L') = .ok V'' →
        ∀ i, V''.get 8 i = V'.get 8 i) :=
  ⟨by decide, serialize_round_trip 8 4 (BitVector.ofList 8 [1, 2, 4]) (by decide)
    (by decide) (by decide)⟩

theorem size_growth_rule_witness :
    (BitVector.mk 5 []).size ≠ (BitVector.mk 10 []).size ∧
    ((BitVector.bit_or 8 (BitVector.mk 5 []) (BitVector.mk 10 [])).size
        = max (BitVector.mk 5 []).size (BitVector.mk 10 []).size ∧
      (BitVector.bit_and 8 (BitVector.mk 5 []) (BitVector.mk 10 [])).size
        = max (BitVector.mk 5 []).size (BitVector.mk 10 []).size ∧
      (BitVector.bit_sub 8 (BitVector.mk 5 []) (BitVector.mk 10 [])).size
        = max (BitVector.mk 5 []).size (BitVector.mk 10 []).size ∧
      (BitVector.bit_xor 8 (BitVector.mk 5 []) (BitVector.mk 10 [])).size
        = max (BitVector.mk 5 []).size (BitVector.mk 10 []).size) :=
  ⟨by decide, size_growth_rule 8 (BitVector.mk 5 []) (BitVector.mk 10 []) (by decide)⟩

theorem scenario_or_and_witness :
    (0 : Nat) < 8 ∧
    (BitVector.bit_or 8 (BitVector.ofList 8 [1, 2, 3]) (BitVector.ofList 8 [1, 2, 4])).get 8 4
      = decide (4 ∈ ([1, 2, 3, 4] : List Nat)) ∧
    (BitVector.bit_and 8 (BitVector.ofList 8 [1, 2, 3]) (BitVector.ofList 8 [1, 2, 4])).get 8 3
      = decide (3 ∈ ([1, 2] : List Nat)) :=
  ⟨by decide, (scenario_or_and 8 (by decide)).1 4, (scenario_or_and 8 (by decide)).2 3⟩

theorem aggregator_fold_equiv_witness :
    (0 : Nat) < 8 ∧
    (Aggregator.combine_or 8 ⟨[BitVector.ofList 8 [1, 2], BitVector.ofList 8 [2, 3],
        BitVector.ofList 8 [3, 4]], true⟩).get 8 4
      = ([BitVector.ofList 8 [2, 3], BitVector.ofList 8 [3, 4]].foldl
          (fun acc s => BitVector.bit_or 8 acc s) (BitVector.ofList 8 [1, 2])).get 8 4 :=
  ⟨by decide, (aggregator_fold_equiv 8 true (BitVector.ofList 8 [1, 2])
    [BitVector.ofList 8 [2, 3], BitVector.ofList 8 [3, 4]] (by decide) (by decide)
    (by decide)).1 4⟩

theorem combine_with_array_eq_witness :
    (0 : Nat) < 8 ∧ BitVector.wf 8 (BitVector.ofList 8 [1, 2, 3]) ∧
    (combine_or_arr 8 (BitVector.ofList 8 [1, 2, 3]) [1, 2, 4, 2]).get 8 4
      = (bvOp 8 .or (BitVector.ofList 8 [1, 2, 3])
          (BitVector.ofList 8 [1, 2, 4, 2])).get 8 4 :=
  ⟨by decide, by decide, (combine_with_array_eq 8 (BitVector.ofList 8 [1, 2, 3])
    [1, 2, 4, 2] (by decide) (by decide)).1 4⟩

theorem optimize_preserves_content_witness :
    (0 : Nat) < 8 ∧
    ((BitVector.ofList 8 [1, 2, 3]).optimize 8 4).get 8 2
      = (BitVector.ofList 8 [1, 2, 3]).get 8 2 :=
  ⟨by decide, optimize_preserves_content 8 4 (BitVector.ofList 8 [1, 2, 3])
    (by decide) (by decide) (by decide) 2⟩

theorem set_sorted_is_union_witness :
    (0 : Nat) < 8 ∧ List.Sorted (fun a b => a < b) [1, 2, 4] ∧
    (BitVector.setArray 8 (BitVector.ofList 8 [1, 2, 3]) [1, 2, 4] .BM_SORTED).get 8 3
      = ((BitVector.ofList 8 [1, 2, 3]).get 8 3 || decide (3 ∈ ([1, 2, 4] : List Nat))) :=
  ⟨by decide, by decide, set_sorted_is_union 8 (BitVector.ofList 8 [1, 2, 3]) [1, 2, 4]
    (by decide) (by decide) (by decide) 3⟩

theorem storable_wf (w : Nat) (b : Block) (h : b.storable w) : b.wf w := by
  cases b with
  | empty => trivial
  | full => trivial
  | bitmap bits => exact h.1
  | runlist ts => trivial

theorem soe_wf (w : Nat) (b : Block) (h : storableOrEmpty w b) : b.wf w := by
  rcases h with h | h
  · rw [h]; trivial
  · exact storable_wf w b h

theorem canonBits_soe (w : Nat) (bits : List Bool) (hlen : bits.length = w) :
    storableOrEmpty w (canonBits bits) := by
  unfold canonBits
  by_cases h0 : bits.all (fun x => x = false)
  · rw [if_pos h0]
    exact Or.inl rfl
  · rw [if_neg h0]
    by_cases h1 : bits.all (fun x => x = true)
    · rw [if_pos h1]
      exact Or.inr trivial
    · rw [if_neg h1]
      exact Or.inr ⟨hlen, h0⟩

theorem canonRun_soe (w : Nat) (ts : List Nat) :
    storableOrEmpty w (canonRun w ts) := by
  unfold canonRun
  by_cases h0 : ((List.range w).map (runVal ts)).all (fun x => x = false)
  · rw [if_pos h0]
    exact Or.inl rfl
  · rw [if_neg h0]
    by_cases h1 : ((List.range w).map (runVal ts)).all (fun x => x = true)
    · rw [if_pos h1]
      exact Or.inr trivial
    · rw [if_neg h1]
      exact Or.inr h0

theorem blockOp_soe (w : Nat) (op : BOp) (l r : Block)
    (hl : storableOrEmpty w l) (hr : storableOrEmpty w r) :
    storableOrEmpty w (blockOp w op l r) := by
  have hfb : storableOrEmpty w (blockFallback w op l r) := by
    unfold blockFallback
    apply canonBits_soe
    rw [List.length_zipWith, toBitmap_length w l (soe_wf w l hl),
      toBitmap_length w r (soe_wf w r hr)]
    omega
  cases op <;> cases l <;> cases r <;>
    simp only [blockOp] <;>
    first
      | exact hfb
      | exact Or.inl rfl
      | exact Or.inr True.intro
      | exact hl
      | exact hr

/- ### Parser step lemmas for arbitrary (possibly malformed) buffers -/

theorem parse_bitmap_trunc (w idx : Nat) (rest : List Nat) (h : rest.length < w) :
    parseRecords w (idx :: 1 :: rest) = ([], some .truncated) := by
  rw [parseRecords.eq_def]
  simp only [if_neg (by omega : ¬(1 : Nat) = 0), if_pos rfl, if_pos h, if_true]

theorem parse_bitmap_ok (w idx : Nat) (rest : List Nat) (h : ¬rest.length < w) :
    parseRecords w (idx :: 1 :: rest) =
      ((idx, canonBits ((rest.take w).map decodeBit)) ::
          (parseRecords w (rest.drop w)).1,
        (parseRecords w (rest.drop w)).2) := by
  rw [parseRecords.eq_def]
  simp only [if_neg (by omega : ¬(1 : Nat) = 0), if_pos rfl, if_neg h, if_true]

theorem parse_run_nolen (w idx : Nat) :
    parseRecords w [idx, 2] = ([], some .truncated) := by
  rw [parseRecords.eq_def]
  simp only [if_neg (by omega : ¬(2 : Nat) = 0), if_neg (by omega : ¬(2 : Nat) = 1),
    if_pos rfl, if_true]

theorem parse_run_trunc (w idx len : Nat) (rest2 : List Nat)
    (h : rest2.length < len) :
    parseRecords w (idx :: 2 :: len :: rest2) = ([], some .truncated) := by
  rw [parseRecords.eq_def]
  simp only [if_neg (by omega : ¬(2 : Nat) = 0), if_neg (by omega : ¬(2 : Nat) = 1),
    if_pos rfl, if_pos h, if_true]

theorem parse_run_ok (w idx len : Nat) (rest2 : List Nat)
    (h : ¬rest2.length < len) :
    parseRecords w (idx :: 2 :: len :: rest2) =
      ((idx, canonRun w (rest2.take len)) :: (parseRecords w (rest2.drop len)).1,
        (parseRecords w (rest2.drop len)).2) := by
  rw [parseRecords.eq_def]
  simp only [if_neg (by omega : ¬(2 : Nat) = 0), if_neg (by omega : ¬(2 : Nat) = 1),
    if_pos rfl, if_neg h, if_true]

theorem parse_unknown (w idx tag : Nat) (rest : List Nat)
    (h0 : ¬tag = 0) (h1 : ¬tag = 1) (h2 : ¬tag = 2) :
    parseRecords w (idx :: tag :: rest) = ([], some .unknownTag) := by
  rw [parseRecords.eq_def]
  simp only [if_neg h0, if_neg h1, if_neg h2]

/-- Every record the streaming parser produces — on any buffer, well-formed
or malformed — carries a block fit for storage (or canonical `Empty`). -/
theorem parseRecords_soe (w : Nat) (l : List Nat) :
    ∀ p ∈ (parseRecords w l).1, storableOrEmpty w p.2 := by
  induction l using parseRecords.induct w with
  | case1 =>
      intro p hp
      rw [parse_nil] at hp
      exact absurd hp (List.not_mem_nil p)
  | case2 x =>
      intro p hp
      rw [parse_single] at hp
      exact absurd hp (List.not_mem_nil p)
  | case3 idx rest ih =>
      intro p hp
      rw [parse_full] at hp
      rcases List.mem_cons.1 hp with h | h
      · rw [h]
        exact Or.inr True.intro
      · exact ih p h
  | case4 idx rest hlt h1 =>
      intro p hp
      rw [parse_bitmap_trunc w idx rest hlt] at hp
      exact absurd hp (List.not_mem_nil p)
  | case5 idx rest hlt h1 ih =>
      intro p hp
      rw [parse_bitmap_ok w idx rest hlt] at hp
      rcases List.mem_cons.1 hp with h | h
      · rw [h]
        exact canonBits_soe w _ (by
          rw [List.length_map, List.length_take]
          omega)
      · exact ih p h
  | case6 idx h20 h21 =>
      intro p hp
      rw [parse_run_nolen] at hp
      exact absurd hp (List.not_mem_nil p)
  | case7 idx len rest2 hlt h20 h21 =>
      intro p hp
      rw [parse_run_trunc w idx len rest2 hlt] at hp
      exact absurd hp (List.not_mem_nil p)
  | case8 idx len rest2 hlt h20 h21 ih =>
      intro p hp
      rw [parse_run_ok w idx len rest2 hlt] at hp
      rcases List.mem_cons.1 hp with h | h
      · rw [h]
        exact canonRun_soe w _
      · exact ih p h
  | case9 idx tag rest h0 h1 h2 =>
      intro p hp
      rw [parse_unknown w idx tag rest h0 h1 h2] at hp
      exact absurd hp (List.not_mem_nil p)

theorem setBlock_inv (w : Nat) (s : BlockStore) (idx : Nat) (b : Block)
    (hs : StoreInv w s) (hb : storableOrEmpty w b) :
    StoreInv w (s.setBlock idx b) := by
  obtain ⟨hnd, hst⟩ := hs
  have hnd' : (BlockStore.keys (List.filter (fun p => p.1 != idx) s)).Nodup :=
    (List.Sublist.map _ (List.filter_sublist s)).nodup hnd
  have hmem' : ∀ p ∈ List.filter (fun p => p.1 != idx) s, Block.storable w p.2 :=
    fun p hp => hst p (List.mem_of_mem_filter hp)
  have hcons : ∀ b' : Block, Block.storable w b' →
      StoreInv w ((idx, b') :: List.filter (fun p => p.1 != idx) s) := by
    intro b' hb'
    constructor
    · refine List.nodup_cons.2 ⟨?_, hnd'⟩
      intro hmem
      rcases List.mem_map.1 hmem with ⟨p, hp, hp1⟩
      have hne := List.of_mem_filter hp
      simp only [bne_iff_ne, ne_eq] at hne
      exact hne hp1
    · intro p hp
      rcases List.mem_cons.1 hp with h | h
      · rw [h]
        exact hb'
      · exact hmem' p h
  rcases hb with hbe | hbs
  · subst hbe
    exact ⟨hnd', hmem'⟩
  · cases b with
    | empty => exact absurd hbs (by simp [Block.storable])
    | full => exact hcons _ hbs
    | bitmap bits => exact hcons _ hbs
    | runlist ts => exact hcons _ hbs

theorem find_soe (w : Nat) (s : BlockStore) (i : Nat) (hs : StoreInv w s) :
    storableOrEmpty w (s.find i) := by
  unfold BlockStore.find
  cases hf : List.find? (fun p => p.1 == i) s with
  | none => exact Or.inl rfl
  | some p => exact Or.inr (hs.2 p (List.mem_of_find?_eq_some hf))

theorem foldl_applyRecord_inv (w : Nat) (op : BOp) :
    ∀ (recs : List (Nat × Block)) (st0 : BlockStore), StoreInv w st0 →
      (∀ p ∈ recs, storableOrEmpty w p.2) →
      StoreInv w (recs.foldl (applyRecord w op) st0) := by
  intro recs
  induction recs with
  | nil => intro st0 h0 _; exact h0
  | cons r recs ih =>
      intro st0 h0 hr
      rw [List.foldl_cons]
      exact ih _ (setBlock_inv w st0 r.1 _ h0
          (blockOp_soe w op _ _ (find_soe w st0 r.1 h0)
            (hr r (List.mem_cons_self r recs))))
        (fun p hp => hr p (List.mem_cons_of_mem r hp))

theorem filter_inv (w : Nat) (s : BlockStore) (q : Nat × Block → Bool)
    (hs : StoreInv w s) : StoreInv w (List.filter q s) :=
  ⟨(List.Sublist.map _ (List.filter_sublist s)).nodup hs.1,
    fun p hp => hs.2 p (List.mem_of_mem_filter hp)⟩

/-- C9: on every byte buffer — well-formed or malformed (bad header,
truncated stream, unknown block-type tag) — deserialize-with-operation
leaves the destination satisfying all block-store invariants; it reports
exactly the decode failure the full decoder reports, distinguishable from
success; and when it reports success, the buffer does fully decode. -/
theorem deserialize_malformed_safe (w : Nat) (op : BOp) (D : BitVector)
    (buf : List Nat) (hw : 0 < w) (hD : StoreInv w D.store) :
    StoreInv w ((deserializeOp w op D buf).1.store) ∧
    (∀ e, decodeVec w buf = .error e → (deserializeOp w op D buf).2 = some e) ∧
    ((deserializeOp w op D buf).2 = none → ∃ v, decodeVec w buf = .ok v) := by
  match buf with
  | [] =>
      refine ⟨hD, ?_, ?_⟩
      · intro e he
        have h2 : DecErr.badHeader = e := by injection he
        rw [← h2]
        rfl
      · intro h
        exact Option.noConfusion h
  | [x] =>
      refine ⟨hD, ?_, ?_⟩
      · intro e he
        have h2 : DecErr.badHeader = e := by injection he
        rw [← h2]
        rfl
      · intro h
        exact Option.noConfusion h
  | m :: sz :: rest =>
      by_cases hm : m = MARKER
      · subst hm
        rcases hpr : parseRecords w rest with ⟨recs, err⟩
        have hsoe : ∀ p ∈ recs, storableOrEmpty w p.2 := by
          have h := parseRecords_soe w rest
          rw [hpr] at h
          exact h
        have hst1 : StoreInv w (recs.foldl (applyRecord w op) D.store) :=
          foldl_applyRecord_inv w op recs D.store hD hsoe
        cases err with
        | none =>
            have hred : deserializeOp w op D (MARKER :: sz :: rest) =
                (⟨max D.size sz,
                  if op = BOp.and then
                    (recs.foldl (applyRecord w op) D.store).filter
                      (fun p => decide (p.1 ∈ recs.map (fun r => r.1)))
                  else recs.foldl (applyRecord w op) D.store⟩, none) := by
              simp only [deserializeOp]
              rw [hpr]
              simp
            have hdecv : decodeVec w (MARKER :: sz :: rest) =
                .ok (⟨sz, recs.foldl (fun st r => st.setBlock r.1 r.2)
                  ([] : BlockStore)⟩ : BitVector) := by
              simp only [decodeVec]
              rw [hpr]
              simp
            refine ⟨?_, ?_, ?_⟩
            · rw [hred]
              by_cases hcond : op = BOp.and
              · show StoreInv w (if op = BOp.and then _ else _)
                rw [if_pos hcond]
                exact filter_inv w _ _ hst1
              · show StoreInv w (if op = BOp.and then _ else _)
                rw [if_neg hcond]
                exact hst1
            · intro e he
              rw [hdecv] at he
              exact absurd he (by simp)
            · intro _
              rw [hdecv]
              exact ⟨_, rfl⟩
        | some e0 =>
            have hred : deserializeOp w op D (MARKER :: sz :: rest) =
                (⟨max D.size sz, recs.foldl (applyRecord w op) D.store⟩, some e0) := by
              simp only [deserializeOp]
              rw [hpr]
              simp
            have hdecv : decodeVec w (MARKER :: sz :: rest) = .error e0 := by
              simp only [decodeVec]
              rw [hpr]
              simp
            refine ⟨?_, ?_, ?_⟩
            · rw [hred]
              exact hst1
            · intro e he
              rw [hdecv] at he
              have h2 : e0 = e := by injection he
              rw [hred, h2]
            · intro hnone
              rw [hred] at hnone
              exact Option.noConfusion hnone
      · have hred : deserializeOp w op D (m :: sz :: rest) = (D, some .badHeader) := by
          simp only [deserializeOp, if_neg hm]
        have hdecv : decodeVec w (m :: sz :: rest) = .error .badHeader := by
          simp only [decodeVec, if_neg hm]
        refine ⟨?_, ?_, ?_⟩
        · rw [hred]
          exact hD
        · intro e he
          rw [hdecv] at he
          have h2 : DecErr.badHeader = e := by injection he
          rw [hred, ← h2]
        · intro h
          rw [hred] at h
          exact Option.noConfusion h

theorem deserialize_malformed_safe_witness :
    (0 : Nat) < 8 ∧ StoreInv 8 (BitVector.ofList 8 [1, 2]).store ∧
    (StoreInv 8 ((deserializeOp 8 .or (BitVector.ofList 8 [1, 2]) [99]).1.store) ∧
      (∀ e, decodeVec 8 [99] = .error e →
        (deserializeOp 8 .or (BitVector.ofList 8 [1, 2]) [99]).2 = some e) ∧
      ((deserializeOp 8 .or (BitVector.ofList 8 [1, 2]) [99]).2 = none →
        ∃ v, decodeVec 8 [99] = .ok v)) :=
  ⟨by decide, by decide, deserialize_malformed_safe 8 .or (BitVector.ofList 8 [1, 2])
    [99] (by decide) (by decide)⟩

end BitMagic
